import Mathlib

/-!
Shallow embedding of the core of the Tonic-Exercise repository
(src/analysis/analyze.py and src/analysis/fetch_issues.py) together with
theorems checking the natural-language specification against it.

All text manipulation is modelled on `List Char` with structural
definitions so that every definition evaluates inside the kernel.
External collaborators (the Jira search endpoint, the OpenRouter
classification service) are modelled as explicit oracles passed in as
arguments; file system state (the JSONL logs, the checkpoint file, the
output artifacts) is modelled as explicit state records.  Loops that are
`while True` in the source take a fuel argument, and interruption
(Ctrl-C between durable writes) is modelled by an optional budget of
durable-write steps, `none` meaning the run is never interrupted.
-/

namespace Tonic

/-! ### Character and string helpers (Python str semantics on ASCII) -/

/-- Python `str.lower` restricted to ASCII, the only case the repository
exercises: upper-case ASCII letters map to lower case, everything else is
unchanged. -/
def lowerChar : Char → Char
  | 'A' => 'a' | 'B' => 'b' | 'C' => 'c' | 'D' => 'd' | 'E' => 'e'
  | 'F' => 'f' | 'G' => 'g' | 'H' => 'h' | 'I' => 'i' | 'J' => 'j'
  | 'K' => 'k' | 'L' => 'l' | 'M' => 'm' | 'N' => 'n' | 'O' => 'o'
  | 'P' => 'p' | 'Q' => 'q' | 'R' => 'r' | 'S' => 's' | 'T' => 't'
  | 'U' => 'u' | 'V' => 'v' | 'W' => 'w' | 'X' => 'x' | 'Y' => 'y'
  | 'Z' => 'z'
  | c => c

/-- Python `str.strip()` (no argument): drop whitespace from both ends. -/
def pyStripWs (cs : List Char) : List Char :=
  ((cs.dropWhile Char.isWhitespace).reverse.dropWhile Char.isWhitespace).reverse

/-- Python `str.strip(chars)`: drop characters of the given set from both
ends. -/
def pyStripChars (set : List Char) (cs : List Char) : List Char :=
  ((cs.dropWhile (fun c => set.contains c)).reverse.dropWhile
    (fun c => set.contains c)).reverse

/-- Python `str.split()` (no argument): split on whitespace runs,
discarding empty pieces. -/
def pySplitWs (cs : List Char) : List (List Char) :=
  (cs.splitOnP Char.isWhitespace).filter (fun p => p ≠ [])

/-- Lower-case a whole string (Python `str.lower`, ASCII). -/
def strLower (s : String) : String :=
  String.mk (s.data.map lowerChar)

/-- Python truthiness of `text and text.strip()`: fails for the empty
string and for whitespace-only strings. -/
def truthyText (s : String) : Bool :=
  s ≠ "" && pyStripWs s.data ≠ []

/-! ### Entity extractor, src/analysis/analyze.py lines 31-36

`SRV_REGEX = re.compile(r"\bsrv-[a-z0-9]{2,10}\b", flags=re.IGNORECASE)`
and `extract_servers` lower-cases every match of `finditer`.

The regex is embedded directly: a word boundary, the literal prefix
`srv` matched case-insensitively, the separator `-`, then a greedy run
of 2 to 10 alphanumerics followed by a word boundary.  Because the
character class is exactly the word characters minus underscore, the
greedy run with its trailing boundary matches precisely when the maximal
alphanumeric run after the separator has length 2 to 10 and the character
after it (if any) is not a word character. -/

/-- Python regex `\w` over ASCII: letters, digits and underscore. -/
def isWordChar (c : Char) : Bool :=
  c.isAlphanum || c == '_'

/-- Split off the maximal leading alphanumeric run (the greedy
`[a-z0-9]{2,10}` candidate under IGNORECASE). -/
def takeAlnum : List Char → List Char × List Char
  | [] => ([], [])
  | c :: cs =>
    if c.isAlphanum then
      let p := takeAlnum cs
      (c :: p.1, p.2)
    else ([], c :: cs)

/-- The trailing word boundary of the pattern: the character after the
matched run, if any, must not be a word character. -/
def boundaryAfter : List Char → Bool
  | [] => true
  | c :: _ => !(isWordChar c)

/-- Try to match `srv-[a-z0-9]{2,10}\b` (IGNORECASE) at the head of the
input.  On success return the lower-cased matched text (Python
`m.group(0).lower()`) and the remaining input. -/
def tryMatchSrv (cs : List Char) : Option (List Char × List Char) :=
  match cs with
  | c1 :: c2 :: c3 :: c4 :: rest =>
    if lowerChar c1 = 's' ∧ lowerChar c2 = 'r' ∧ lowerChar c3 = 'v' ∧ c4 = '-' then
      let p := takeAlnum rest
      if 2 ≤ p.1.length ∧ p.1.length ≤ 10 ∧ boundaryAfter p.2 = true then
        some ((c1 :: c2 :: c3 :: c4 :: p.1).map lowerChar, p.2)
      else none
    else none
  | _ => none

/-- `re.finditer` scan: try the pattern at each position left to right,
skipping positions whose leading `\b` fails (the previous character is a
word character), and resuming after the end of each match
(non-overlapping matches).  The fuel argument is an upper bound on the
number of scan steps; `cs.length` always suffices because every step
consumes at least one character. -/
def scanSrv : Nat → Bool → List Char → List String
  | 0, _, _ => []
  | _ + 1, _, [] => []
  | fuel + 1, prevWord, c :: rest =>
    if prevWord then scanSrv fuel (isWordChar c) rest
    else
      match tryMatchSrv (c :: rest) with
      | some p => String.mk p.1 :: scanSrv fuel true p.2
      | none => scanSrv fuel (isWordChar c) rest

/-- `extract_servers` (analyze.py lines 33-36): empty text yields the
empty list, otherwise all lower-cased regex matches in text order. -/
def extract_servers (text : String) : List String :=
  if text = "" then []
  else scanSrv text.data.length false text.data

/-- A canonical output character of the extractor: alphanumeric and not
an upper-case letter. -/
def lowAlnumChar (c : Char) : Bool :=
  c.isAlphanum && !c.isUpper

/-- The lexical shape the spec ascribes to every extracted identifier:
the literal prefix `srv`, the separator `-`, then a lower-case
alphanumeric suffix of length 2 to 10. -/
def wellFormedSrv (s : String) : Bool :=
  match s.data with
  | 's' :: 'r' :: 'v' :: '-' :: run =>
    run.all lowAlnumChar && decide (2 ≤ run.length) && decide (run.length ≤ 10)
  | _ => false

/-! ### Classifier gateway, src/analysis/analyze.py lines 19-96 -/

/-- `TECH_LABELS` (analyze.py line 19). -/
def TECH_LABELS : List String :=
  ["database", "networking", "authentication", "api", "storage"]

/-- `_ALLOWED` (analyze.py line 20): the lower-cased label set. -/
def ALLOWED : List String := TECH_LABELS.map strLower

/-- `UNCLASSIFIED_LABEL` (analyze.py line 21), kept out of the allowed
set on purpose. -/
def UNCLASSIFIED_LABEL : String := "unclassified"

/-- One response of the external classification service: either a
completion whose content may be null, or a transport/remote failure
(network error, non-2xx, timeout), which the OpenAI client surfaces as a
raised exception. -/
inductive SvcResult where
  | ok (content : Option String)
  | fail
deriving Repr, DecidableEq

/-- The characters stripped by `raw.strip("\x60\x22\x27 ")` in
`ask_once` (analyze.py line 86): backtick, double quote, single quote
and space. -/
def askStripSet : List Char :=
  [Char.ofNat 96, Char.ofNat 34, Char.ofNat 39, ' ']

/-- The normalization in `ask_once` (analyze.py lines 85-86):
`raw = (content or "").strip().lower()` then
`raw.strip("\x60\x22\x27 ").split()[0] if raw else ""`.
The result is `none` when the indexing `[0]` raises (every character was
stripped), which the caller's `except` turns into the fallback label. -/
def normalize_resp (content : Option String) : Option String :=
  let raw := ((pyStripWs (content.getD "").data).map lowerChar)
  if raw = [] then some ""
  else ((pySplitWs (pyStripChars askStripSet raw)).head?).map String.mk

/-- `ask_once` (analyze.py lines 76-86) against one oracle response:
a transport failure is a raised exception (`none`), otherwise the
normalized token, where `none` also covers the IndexError on an
all-stripped response. -/
def ask_once (r : SvcResult) : Option String :=
  match r with
  | .fail => none
  | .ok c => normalize_resp c

/-- `classify_technology` (analyze.py lines 59-96), with the external
service modelled as a response oracle indexed by attempt number.
Returns the label together with the number of service calls made.
Empty/whitespace-only text short-circuits with zero calls; an exception
anywhere (transport failure included) falls through the `except` to the
fallback label. -/
def classify_technology (text : String) (responses : Nat → SvcResult) :
    String × Nat :=
  if truthyText text = false then (UNCLASSIFIED_LABEL, 0)
  else
    match ask_once (responses 0) with
    | none => (UNCLASSIFIED_LABEL, 1)
    | some label =>
      if label ∈ ALLOWED then (label, 1)
      else
        match ask_once (responses 1) with
        | none => (UNCLASSIFIED_LABEL, 2)
        | some l2 => (if l2 ∈ ALLOWED then l2 else UNCLASSIFIED_LABEL, 2)

/-! ### Items and JSONL records -/

/-- An item of the consolidated collection as built by the fetch stage
(and read back by analyze.py): `{key, type, summary, description}`.
`key` and `type` may be JSON null; `summary` defaults to the empty
string (`fields.get("summary") or ""`). -/
structure Item where
  key : Option String
  type : Option String
  summary : String
  description : String
deriving Repr, DecidableEq

/-- A line of the classification log `technology_annotations.jsonl`:
`{"key": key, "label": label}`. -/
structure TechRec where
  key : Option String
  label : String
deriving Repr, DecidableEq

/-- A line of the extraction log `server_mentions.jsonl`:
`{"key": key, "servers": servers}`. -/
structure ServerRec where
  key : Option String
  servers : List String
deriving Repr, DecidableEq

/-- The analysis-side file system: the two durable append-only logs and
the three output artifacts that `aggregate_outputs` fully rewrites. -/
structure AnalyzeState where
  techLog : List TechRec
  serverLog : List ServerRec
  techCounts : List (String × Nat)
  serverCounts : List (String × Nat)
  unresolved : List (Option String × String)
deriving Repr, DecidableEq

/-- The state of the output directory before any run. -/
def emptyAnalyzeState : AnalyzeState :=
  { techLog := [], serverLog := [], techCounts := [], serverCounts := [],
    unresolved := [] }

/-- One step of set construction while scanning keys: ignore a
missing/null/empty key, otherwise add it if new. -/
def dedupStep (acc : List String) (k : Option String) : List String :=
  match k with
  | some s => if s = "" then acc else if s ∈ acc then acc else acc ++ [s]
  | none => acc

/-- Collect the distinct truthy keys of a record sequence in first-seen
order: the set built by `load_processed_keys_from_jsonl` (analyze.py
lines 99-110) and by `load_saved_keys` (fetch_issues.py lines 68-86),
both of which skip records whose key field is missing/null/empty. -/
def dedupKeys (ks : List (Option String)) : List String :=
  ks.foldl dedupStep []

/-- `load_processed_keys_from_jsonl(TECH_PER_ISSUE, "key")`. -/
def load_processed_keys_tech (l : List TechRec) : List String :=
  dedupKeys (l.map (fun r => r.key))

/-- `load_processed_keys_from_jsonl(SERVERS_PER_ISSUE, "key")`. -/
def load_processed_keys_servers (l : List ServerRec) : List String :=
  dedupKeys (l.map (fun r => r.key))

/-! ### Aggregation, src/analysis/analyze.py lines 118-154 -/

/-- `Counter.update([x])`: bump the count of `x`, keeping first-insertion
order of keys as Python dicts do. -/
def counter_update (c : List (String × Nat)) (x : String) :
    List (String × Nat) :=
  if c.any (fun p => p.1 = x) then
    c.map (fun p => if p.1 = x then (p.1, p.2 + 1) else p)
  else c ++ [(x, 1)]

/-- `Counter.update(xs)` for a list of elements. -/
def counter_update_many (c : List (String × Nat)) (xs : List String) :
    List (String × Nat) :=
  xs.foldl counter_update c

/-- Stable insertion keeping counts in descending order (equal counts
keep their relative order, as Python's stable `sorted` does). -/
def insertByCount (x : String × Nat) :
    List (String × Nat) → List (String × Nat)
  | [] => [x]
  | y :: ys => if y.2 < x.2 then x :: y :: ys else y :: insertByCount x ys

/-- `Counter.most_common()`: the entries sorted by descending count,
stably. -/
def most_common : List (String × Nat) → List (String × Nat)
  | [] => []
  | x :: xs => insertByCount x (most_common xs)

/-- The technology counter built from the classification log
(analyze.py lines 120-127): one `update` per log line whose label is
truthy. -/
def tech_counter_of (l : List TechRec) : List (String × Nat) :=
  l.foldl (fun c r => if r.label = "" then c else counter_update c r.label) []

/-- One line of the pass over the extraction log (analyze.py lines
136-144): a line with a non-empty server list updates the server counter
and adds the key to `keys_with_servers`. -/
def server_scan_step (acc : List (String × Nat) × List (Option String))
    (r : ServerRec) : List (String × Nat) × List (Option String) :=
  if r.servers = [] then acc
  else
    (counter_update_many acc.1 r.servers,
     if r.key ∈ acc.2 then acc.2 else acc.2 ++ [r.key])

/-- The single pass over the extraction log (analyze.py lines 133-144):
for every line with a non-empty server list, add the key to
`keys_with_servers` and update the server counter. -/
def server_scan (l : List ServerRec) :
    List (String × Nat) × List (Option String) :=
  l.foldl server_scan_step ([], [])

/-- `aggregate_outputs` (analyze.py lines 118-154): rebuild the three
output artifacts from the two logs and the full collection, replacing
whatever was there before. -/
def aggregate_outputs (issues_all : List Item) (st : AnalyzeState) :
    AnalyzeState :=
  let techCounts := most_common (tech_counter_of st.techLog)
  let scan := server_scan st.serverLog
  let serverCounts := most_common scan.1
  let keys_with_servers := scan.2
  let unresolved :=
    (issues_all.filter (fun i => decide (i.key ∉ keys_with_servers))).map
      (fun i => (i.key, i.summary))
  { st with techCounts := techCounts, serverCounts := serverCounts,
            unresolved := unresolved }

/-! ### Enrichment pipeline, src/analysis/analyze.py lines 157-199 -/

/-- One unit of durable-write budget: `none` is an uninterrupted run,
`some 0` means the interruption arrives before the next durable append,
`some (b+1)` allows the append and leaves `b` units. -/
def spendAppend : Option Nat → Option (Option Nat)
  | none => some none
  | some 0 => none
  | some (b + 1) => some (some b)

/-- Membership of an item's key in `processed_complete`; a null key is
never in the set. -/
def keyDone (k : Option String) (done : List String) : Bool :=
  match k with
  | some s => decide (s ∈ done)
  | none => false

/-- The working text of an item: `f"{summary}\n{desc}".strip()`
(analyze.py line 181). -/
def itemText (i : Item) : String :=
  String.mk (pyStripWs (i.summary ++ "\n" ++ i.description).data)

/-- The per-item loop of `main` (analyze.py lines 174-192): skip items
whose key is fully done, otherwise extract servers and append to the
extraction log, then classify and append to the classification log.
The service oracle is indexed by item position and attempt; the budget
models an interruption (Ctrl-C or an unhandled error) between any two
durable appends, after which whatever was appended stays on disk. -/
def enrich_loop (svc : Nat → Nat → SvcResult) (done : List String) :
    List Item → Nat → AnalyzeState → Option Nat → AnalyzeState
  | [], _, st, _ => st
  | issue :: rest, idx, st, budget =>
    if keyDone issue.key done then enrich_loop svc done rest (idx + 1) st budget
    else
      match spendAppend budget with
      | none => st
      | some b1 =>
        let text := itemText issue
        let servers := extract_servers text
        let st1 := { st with serverLog := st.serverLog ++ [⟨issue.key, servers⟩] }
        match spendAppend b1 with
        | none => st1
        | some b2 =>
          let label := (classify_technology text (svc idx)).1
          let st2 := { st1 with techLog := st1.techLog ++ [⟨issue.key, label⟩] }
          enrich_loop svc done rest (idx + 1) st2 b2

/-- `main` (analyze.py lines 157-199): cap the collection at
`ISSUE_LIMIT` when positive, compute `processed_complete` as the keys
present in both logs, run the per-item loop (which may be interrupted),
then always aggregate over the full collection. -/
def analyze_main (limit : Nat) (issues_all : List Item)
    (svc : Nat → Nat → SvcResult) (st : AnalyzeState) (budget : Option Nat) :
    AnalyzeState :=
  let issues := if 0 < limit then issues_all.take limit else issues_all
  let processed_tech := load_processed_keys_tech st.techLog
  let processed_servers := load_processed_keys_servers st.serverLog
  let done := processed_tech.filter (fun k => decide (k ∈ processed_servers))
  let st1 := enrich_loop svc done issues 0 st budget
  aggregate_outputs issues_all st1

/-- A whole enrichment run as scheduled by the operator: the cap, the
collection file, the behaviour of the external service and the
interruption point. -/
structure EnrichRunSpec where
  limit : Nat
  issues : List Item
  svc : Nat → Nat → SvcResult
  budget : Option Nat

/-- Any number of enrichment runs against the same output directory,
starting from the state before any run. -/
def enrichTrace (runs : List EnrichRunSpec) : AnalyzeState :=
  runs.foldl
    (fun st r => analyze_main r.limit r.issues r.svc st r.budget)
    emptyAnalyzeState

/-! ### Fetch pipeline, src/analysis/fetch_issues.py -/

/-- A child node of a Jira ADF paragraph, as far as `adf_to_text`
inspects it. -/
inductive AdfChild where
  | text (s : String)
  | hardBreak
  | otherChild
deriving Repr, DecidableEq

/-- A top-level node of a Jira ADF document. -/
inductive AdfNode where
  | paragraph (children : List AdfChild)
  | otherNode
deriving Repr, DecidableEq

/-- A Jira ADF document (`{"content": [...]}`). -/
structure Adf where
  content : List AdfNode
deriving Repr, DecidableEq

/-- Join pieces with a separator (Python `sep.join`). -/
def joinWith (sep : List Char) : List (List Char) → List Char
  | [] => []
  | [x] => x
  | x :: y :: rest => x ++ sep ++ joinWith sep (y :: rest)

/-- `adf_to_text` (fetch_issues.py lines 39-53): flatten paragraphs to
stripped lines joined by blank lines, hard breaks becoming newlines;
a missing document yields the empty string. -/
def adf_to_text : Option Adf → String
  | none => ""
  | some adf =>
    let lines := adf.content.filterMap
      (fun n =>
        match n with
        | .paragraph children =>
          some (pyStripWs
            (children.foldl
              (fun p c =>
                match c with
                | .text s => p ++ s.data
                | .hardBreak => p ++ ['\n']
                | .otherChild => p) []))
        | .otherNode => none)
    String.mk (pyStripWs (joinWith ['\n', '\n'] lines))

/-- A raw issue of a search-endpoint page, with the fields the fetcher
asks for already projected out (`issue["key"]`,
`(fields.get("issuetype") or \x7b\x7d).get("name")`, `fields.get("summary")`,
`fields.get("description")`). -/
structure RawIssue where
  key : Option String
  issuetype : Option String
  summary : Option String
  description : Option Adf
deriving Repr, DecidableEq

/-- The `obj` built for each issue (fetch_issues.py lines 163-168). -/
def build_issue_obj (iss : RawIssue) : Item :=
  { key := iss.key, type := iss.issuetype,
    summary := iss.summary.getD "",
    description := adf_to_text iss.description }

/-- The checkpoint written after each page (fetch_issues.py lines
184-191).  `nextPageToken` is modelled as the index of the next page to
serve. -/
structure Checkpoint where
  jql : String
  page_size : Nat
  nextPageToken : Option Nat
  saved_unique : Nat
  page_index : Nat
  isLast : Bool
deriving Repr, DecidableEq

/-- A response of the paginated search endpoint. -/
structure FetchResp where
  issues : List RawIssue
  nextPageToken : Option Nat
  isLast : Bool
deriving Repr, DecidableEq

/-- The page served for a given start index: the source's stable page
sequence, a continuation token for the next page when one exists, and
the is-last flag. -/
def mkResp (pages : List (List RawIssue)) (t : Nat) : FetchResp :=
  { issues := pages.getD t [],
    nextPageToken := if t + 1 < pages.length then some (t + 1) else none,
    isLast := decide (pages.length ≤ t + 1) }

/-- How one invocation of the fetch loop ended: break on the is-last
flag, break on an empty page, a propagated HTTP error on a cursor-less
request, an interruption between durable writes, or fuel exhaustion of
the model (never reached with enough fuel). -/
inductive Outcome where
  | doneLast
  | doneEmpty
  | errored
  | interrupted
  | noFuel
deriving Repr, DecidableEq

/-- Result of `process_page`: the updated key set and log, and the
budget left (`none` when the interruption hit inside the page). -/
structure PageResult where
  saved : List String
  log : List Item
  left : Option (Option Nat)
deriving Repr

/-- The per-issue loop over one page (fetch_issues.py lines 161-177):
normalize fields, skip null/empty keys, skip keys already saved,
otherwise durably append and record the key. -/
def process_page (issues : List RawIssue) (saved : List String)
    (log : List Item) (budget : Option Nat) : PageResult :=
  match issues with
  | [] => { saved := saved, log := log, left := some budget }
  | iss :: rest =>
    match iss.key with
    | none => process_page rest saved log budget
    | some k =>
      if k = "" then process_page rest saved log budget
      else if k ∈ saved then process_page rest saved log budget
      else
        match spendAppend budget with
        | none => { saved := saved, log := log, left := none }
        | some b =>
          process_page rest (saved ++ [k]) (log ++ [build_issue_obj iss]) b

/-- Result of the fetch loop: final key set, log, checkpoint and
outcome. -/
structure FetchResult where
  saved : List String
  log : List Item
  cp : Option Checkpoint
  out : Outcome
deriving Repr

/-- The loop of `fetch_all_basic_resumable` (fetch_issues.py lines
134-195).  `fails` tells which request numbers the endpoint rejects
(HTTP error): on a rejection while a token was supplied the token is
cleared and the loop continues from the beginning, on a cursor-less
request the error propagates.  After a page: bump the page index,
take the returned continuation token, atomically write the checkpoint,
and stop when the response was flagged last; an empty page stops the
loop before any of that. -/
def fetch_all_basic_resumable (jql : String) (page_size : Nat)
    (pages : List (List RawIssue)) (fails : Nat → Bool) :
    Nat → Nat → Nat → Option Nat → List String → List Item →
    Option Nat → Option Checkpoint → FetchResult
  | 0, _, _, _, saved, log, _, cp =>
    { saved := saved, log := log, cp := cp, out := .noFuel }
  | fuel + 1, callNo, page_index, token, saved, log, budget, cp =>
    if fails callNo then
      match token with
      | some _ =>
        fetch_all_basic_resumable jql page_size pages fails
          fuel (callNo + 1) page_index none saved log budget cp
      | none => { saved := saved, log := log, cp := cp, out := .errored }
    else
      let t := token.getD 0
      let data := mkResp pages t
      if data.issues = [] then
        { saved := saved, log := log, cp := cp, out := .doneEmpty }
      else
        let r := process_page data.issues saved log budget
        match r.left with
        | none => { saved := r.saved, log := r.log, cp := cp, out := .interrupted }
        | some b1 =>
          let page_index' := page_index + 1
          let token' := data.nextPageToken
          match spendAppend b1 with
          | none =>
            { saved := r.saved, log := r.log, cp := cp, out := .interrupted }
          | some b2 =>
            let cp' : Checkpoint :=
              { jql := jql, page_size := page_size,
                nextPageToken := token', saved_unique := r.saved.length,
                page_index := page_index', isLast := data.isLast }
            if data.isLast then
              { saved := r.saved, log := r.log, cp := some cp', out := .doneLast }
            else
              fetch_all_basic_resumable jql page_size pages fails
                fuel (callNo + 1) page_index' token' r.saved r.log b2 (some cp')

/-- `load_saved_keys` (fetch_issues.py lines 68-86): the set of keys of
the partial log, skipping records without a truthy key. -/
def load_saved_keys (log : List Item) : List String :=
  dedupKeys (log.map (fun it => it.key))

/-- `materialize_json_from_jsonl` (fetch_issues.py lines 93-106): replay
every record of the partial log, in order, into the consolidated
collection. -/
def materialize_json_from_jsonl (log : List Item) : List Item :=
  log.foldl (fun items it => items ++ [it]) []

/-- What survives between fetch runs on disk: the partial JSONL log and
the checkpoint file. -/
structure DiskState where
  log : List Item
  cp : Option Checkpoint
deriving Repr

/-- One invocation of `fetch_all_basic_resumable` against the stored
disk state (fetch_issues.py lines 109-195): rebuild the saved-key set
from the log, seed the token from the checkpoint when opted in, and run
the loop with `page_index = 0`. -/
def runFetchOnce (jql : String) (page_size : Nat)
    (pages : List (List RawIssue)) (fails : Nat → Bool) (tryUse : Bool)
    (fuel : Nat) (budget : Option Nat) (d : DiskState) :
    DiskState × Outcome :=
  let saved := load_saved_keys d.log
  let token :=
    if tryUse then
      match d.cp with
      | some c => c.nextPageToken
      | none => none
    else none
  let r := fetch_all_basic_resumable jql page_size pages fails
    fuel 0 0 token saved d.log budget d.cp
  ({ log := r.log, cp := r.cp }, r.out)

/-- A fetch run as scheduled against the same source: which requests the
endpoint rejects, how long the run lives (fuel) and where the
interruption hits (budget). -/
structure FetchRunSpec where
  fails : Nat → Bool
  fuel : Nat
  budget : Option Nat

/-- Any number of fetch runs against the same log and checkpoint paths,
starting from a cold start. -/
def fetchTrace (jql : String) (page_size : Nat)
    (pages : List (List RawIssue)) (runs : List FetchRunSpec) : DiskState :=
  runs.foldl
    (fun d r => (runFetchOnce jql page_size pages r.fails true r.fuel r.budget d).1)
    { log := [], cp := none }

/-! ### Derived key sets used by the statements -/

/-- The truthy keys of a sequence of optional keys, in order, repeats
kept. -/
def keysOf (ks : List (Option String)) : List String :=
  ks.filterMap
    (fun k =>
      match k with
      | some s => if s = "" then none else some s
      | none => none)

/-- The truthy keys of the items of a log or collection. -/
def itemKeys (l : List Item) : List String :=
  keysOf (l.map (fun it => it.key))

/-- The truthy keys of the raw issues of one page. -/
def pageKeys (p : List RawIssue) : List String :=
  keysOf (p.map (fun iss => iss.key))

/-- Every truthy key served by the source, over all pages. -/
def sourceKeys (pages : List (List RawIssue)) : List String :=
  (pages.map pageKeys).flatten

/-! ### Concrete fixtures used by witness statements -/

/-- A first sample issue as served by the search endpoint. -/
def wIssueA : RawIssue :=
  { key := some "TON-1", issuetype := some "Bug",
    summary := some "db srv-ab1 down", description := none }

/-- A second sample issue. -/
def wIssueB : RawIssue :=
  { key := some "TON-2", issuetype := some "Task",
    summary := some "net issue", description := none }

/-- A two-page source. -/
def wPages : List (List RawIssue) := [[wIssueA], [wIssueB]]

/-- A one-page source. -/
def wPagesOne : List (List RawIssue) := [[wIssueA]]

/-- A source whose last served page is empty while the page before it was
not flagged last. -/
def wPagesEmptyTail : List (List RawIssue) := [[wIssueA], []]

/-- An endpoint that accepts every request. -/
def wNoFail : Nat → Bool := fun _ => false

/-- An endpoint that rejects exactly the first request of a run. -/
def wFailFirst : Nat → Bool := fun n => n == 0

/-- One prior fetch run that dies of old age after the first page,
leaving a checkpoint with a stored continuation token. -/
def wRuns : List FetchRunSpec :=
  [{ fails := wNoFail, fuel := 1, budget := none }]

/-- The checkpoint left on disk by `wRuns` over `wPages`. -/
def wCp : Checkpoint :=
  { jql := "project = TON", page_size := 10, nextPageToken := some 1,
    saved_unique := 1, page_index := 1, isLast := false }

/-- A first sample collection item. -/
def wItemA : Item :=
  { key := some "A-1", type := none, summary := "sum srv-xx1",
    description := "d" }

/-- A second sample collection item. -/
def wItemB : Item :=
  { key := some "A-2", type := none, summary := "s2", description := "d2" }

/-- A classification service that is down. -/
def wSvcFail : Nat → Nat → SvcResult := fun _ _ => SvcResult.fail

/-- One uncapped, uninterrupted enrichment run over a single item. -/
def wEnrichRun : EnrichRunSpec :=
  { limit := 0, issues := [wItemA], svc := wSvcFail, budget := none }

/-- All truthy keys of the pages before index `t` are already present in
the log. -/
def coveredBefore (pages : List (List RawIssue)) (log : List Item)
    (t : Nat) : Prop :=
  ∀ i, i < t → ∀ k ∈ pageKeys (pages.getD i []), k ∈ itemKeys log

/-- Soundness of a stored checkpoint with respect to a log: when it
carries a continuation token, that token addresses a real page and every
page before it is already fully logged. -/
def CpInv (pages : List (List RawIssue)) (log : List Item)
    (cp : Option Checkpoint) : Prop :=
  ∀ c t, cp = some c → c.nextPageToken = some t →
    t < pages.length ∧ coveredBefore pages log t

/-- The invariant of the on-disk fetch state maintained across runs:
the log holds each truthy key at most once, only keys the source serves,
and the checkpoint is sound for the log. -/
def DiskInv (pages : List (List RawIssue)) (d : DiskState) : Prop :=
  (itemKeys d.log).Nodup ∧
  (∀ k ∈ itemKeys d.log, k ∈ sourceKeys pages) ∧
  CpInv pages d.log d.cp

/-! ## Helper lemmas about key sets -/

theorem mem_keysOf (ks : List (Option String)) (k : String) :
    k ∈ keysOf ks ↔ some k ∈ ks ∧ k ≠ "" := by
  simp only [keysOf, List.mem_filterMap]
  constructor
  · rintro ⟨a, ha, hf⟩
    cases a with
    | none => simp at hf
    | some s =>
      by_cases hs : s = ""
      · simp [hs] at hf
      · simp only [hs, if_false, Option.some.injEq] at hf
        subst hf
        exact ⟨ha, hs⟩
  · rintro ⟨ha, hk⟩
    exact ⟨some k, ha, by simp [hk]⟩

theorem itemKeys_append (l1 l2 : List Item) :
    itemKeys (l1 ++ l2) = itemKeys l1 ++ itemKeys l2 := by
  simp [itemKeys, keysOf]

theorem itemKeys_snoc_some (l : List Item) (it : Item) (k : String)
    (hk : it.key = some k) (hne : k ≠ "") :
    itemKeys (l ++ [it]) = itemKeys l ++ [k] := by
  simp [itemKeys, keysOf, hk, hne]

theorem mem_itemKeys (l : List Item) (k : String) :
    k ∈ itemKeys l ↔ some k ∈ l.map (fun it => it.key) ∧ k ≠ "" :=
  mem_keysOf _ _

theorem mem_foldl_dedupStep (ks : List (Option String)) :
    ∀ (acc : List String) (k : String),
      k ∈ ks.foldl dedupStep acc ↔ k ∈ acc ∨ (some k ∈ ks ∧ k ≠ "") := by
  induction ks with
  | nil => intro acc k; simp
  | cons a t ih =>
    intro acc k
    rw [List.foldl_cons, ih]
    cases a with
    | none => simp [dedupStep]
    | some s =>
      by_cases hs : s = ""
      · subst hs
        simp only [dedupStep, if_pos rfl, List.mem_cons, Option.some.injEq]
        constructor
        · rintro (h | ⟨h, hk⟩)
          · exact Or.inl h
          · exact Or.inr ⟨Or.inr h, hk⟩
        · rintro (h | ⟨h | h, hk⟩)
          · exact Or.inl h
          · exact absurd h hk
          · exact Or.inr ⟨h, hk⟩
      · by_cases hmem : s ∈ acc
        · simp only [dedupStep, if_neg hs, if_pos hmem, List.mem_cons,
            Option.some.injEq]
          constructor
          · rintro (h | ⟨h, hk⟩)
            · exact Or.inl h
            · exact Or.inr ⟨Or.inr h, hk⟩
          · rintro (h | ⟨h | h, hk⟩)
            · exact Or.inl h
            · exact Or.inl (h ▸ hmem)
            · exact Or.inr ⟨h, hk⟩
        · simp only [dedupStep, if_neg hs, if_neg hmem, List.mem_append,
            List.mem_cons, List.not_mem_nil, or_false, Option.some.injEq]
          constructor
          · rintro ((h | h) | ⟨h, hk⟩)
            · exact Or.inl h
            · exact Or.inr ⟨Or.inl h, h ▸ hs⟩
            · exact Or.inr ⟨Or.inr h, hk⟩
          · rintro (h | ⟨h | h, hk⟩)
            · exact Or.inl (Or.inl h)
            · exact Or.inl (Or.inr h)
            · exact Or.inr ⟨h, hk⟩

theorem mem_dedupKeys (ks : List (Option String)) (k : String) :
    k ∈ dedupKeys ks ↔ some k ∈ ks ∧ k ≠ "" := by
  rw [dedupKeys, mem_foldl_dedupStep]
  simp

theorem mem_load_saved_keys (log : List Item) (k : String) :
    k ∈ load_saved_keys log ↔ k ∈ itemKeys log := by
  rw [load_saved_keys, mem_dedupKeys, mem_itemKeys]

theorem materialize_eq (log : List Item) :
    materialize_json_from_jsonl log = log := by
  have h : ∀ (l acc : List Item),
      l.foldl (fun items it => items ++ [it]) acc = acc ++ l := by
    intro l
    induction l with
    | nil => intro acc; simp
    | cons a t ih => intro acc; simp [ih]
  simpa [materialize_json_from_jsonl] using h log []

theorem mem_sourceKeys (pages : List (List RawIssue)) (k : String) :
    k ∈ sourceKeys pages ↔
      ∃ i, i < pages.length ∧ k ∈ pageKeys (pages.getD i []) := by
  simp only [sourceKeys, List.mem_flatten, List.mem_map]
  constructor
  · rintro ⟨l, ⟨p, hp, rfl⟩, hk⟩
    obtain ⟨i, hi, rfl⟩ := List.mem_iff_getElem.mp hp
    exact ⟨i, hi, by rwa [List.getD_eq_getElem _ _ hi]⟩
  · rintro ⟨i, hi, hk⟩
    refine ⟨pageKeys (pages.getD i []), ⟨pages.getD i [], ?_, rfl⟩, hk⟩
    rw [List.getD_eq_getElem _ _ hi]
    exact List.getElem_mem hi

/-! ## Per-page lemmas of the fetch loop -/

theorem pageKeys_cons_none (iss : RawIssue) (rest : List RawIssue)
    (h : iss.key = none) : pageKeys (iss :: rest) = pageKeys rest := by
  simp [pageKeys, keysOf, h]

theorem pageKeys_cons_empty (iss : RawIssue) (rest : List RawIssue)
    (h : iss.key = some "") : pageKeys (iss :: rest) = pageKeys rest := by
  simp [pageKeys, keysOf, h]

theorem pageKeys_cons_some (iss : RawIssue) (rest : List RawIssue)
    (k : String) (h : iss.key = some k) (hk : k ≠ "") :
    pageKeys (iss :: rest) = k :: pageKeys rest := by
  simp [pageKeys, keysOf, h, hk]

theorem process_page_spec (issues : List RawIssue) :
    ∀ (saved : List String) (log : List Item) (budget : Option Nat),
      (∀ k, k ∈ saved ↔ k ∈ itemKeys log) →
      (itemKeys log).Nodup →
      (∀ k, k ∈ (process_page issues saved log budget).saved ↔
          k ∈ itemKeys (process_page issues saved log budget).log) ∧
      (itemKeys (process_page issues saved log budget).log).Nodup ∧
      (∃ tail, (process_page issues saved log budget).log = log ++ tail) ∧
      (∀ k ∈ itemKeys (process_page issues saved log budget).log,
          k ∈ itemKeys log ∨ k ∈ pageKeys issues) ∧
      (∀ b, (process_page issues saved log budget).left = some b →
          ∀ k ∈ pageKeys issues, k ∈ (process_page issues saved log budget).saved) ∧
      (∀ k ∈ saved, k ∈ (process_page issues saved log budget).saved) := by
  induction issues with
  | nil =>
    intro saved log budget hmem hnd
    refine ⟨hmem, hnd, ⟨[], by simp [process_page]⟩, ?_, ?_, ?_⟩
    · intro k hk
      exact Or.inl hk
    · intro b _ k hk
      simp [pageKeys, keysOf] at hk
    · intro k hk
      simpa [process_page] using hk
  | cons iss rest ih =>
    intro saved log budget hmem hnd
    cases hKey : iss.key with
    | none =>
      have heq : process_page (iss :: rest) saved log budget =
          process_page rest saved log budget := by
        simp [process_page, hKey]
      rw [heq, pageKeys_cons_none iss rest hKey]
      exact ih saved log budget hmem hnd
    | some k =>
      by_cases hk : k = ""
      · subst hk
        have heq : process_page (iss :: rest) saved log budget =
            process_page rest saved log budget := by
          simp [process_page, hKey]
        rw [heq, pageKeys_cons_empty iss rest hKey]
        exact ih saved log budget hmem hnd
      · by_cases hin : k ∈ saved
        · have heq : process_page (iss :: rest) saved log budget =
              process_page rest saved log budget := by
            simp [process_page, hKey, hk, hin]
          rw [heq, pageKeys_cons_some iss rest k hKey hk]
          obtain ⟨ih1, ih2, ih3, ih4, ih5, ih6⟩ := ih saved log budget hmem hnd
          refine ⟨ih1, ih2, ih3, ?_, ?_, ih6⟩
          · intro k' hk'
            rcases ih4 k' hk' with h | h
            · exact Or.inl h
            · exact Or.inr (List.mem_cons_of_mem _ h)
          · intro b hb k' hk'
            rcases List.mem_cons.mp hk' with rfl | h
            · exact ih6 k' hin
            · exact ih5 b hb k' h
        · cases hbud : spendAppend budget with
          | none =>
            have heq : process_page (iss :: rest) saved log budget =
                { saved := saved, log := log, left := none } := by
              simp [process_page, hKey, hk, hin, hbud]
            rw [heq]
            refine ⟨hmem, hnd, ⟨[], by simp⟩, ?_, ?_, ?_⟩
            · intro k' hk'
              exact Or.inl hk'
            · intro b hb
              simp at hb
            · intro k' hk'
              exact hk'
          | some b =>
            have hobjKey : (build_issue_obj iss).key = some k := by
              simp [build_issue_obj, hKey]
            have hlogKeys : itemKeys (log ++ [build_issue_obj iss]) =
                itemKeys log ++ [k] :=
              itemKeys_snoc_some log (build_issue_obj iss) k hobjKey hk
            have hknotlog : k ∉ itemKeys log := fun h => hin ((hmem k).mpr h)
            have hmem' : ∀ k', k' ∈ saved ++ [k] ↔
                k' ∈ itemKeys (log ++ [build_issue_obj iss]) := by
              intro k'
              rw [hlogKeys]
              simp [List.mem_append, hmem k']
            have hnd' : (itemKeys (log ++ [build_issue_obj iss])).Nodup := by
              rw [hlogKeys, ← List.concat_eq_append]
              exact List.Nodup.concat hknotlog hnd
            have heq : process_page (iss :: rest) saved log budget =
                process_page rest (saved ++ [k])
                  (log ++ [build_issue_obj iss]) b := by
              simp [process_page, hKey, hk, hin, hbud]
            rw [heq, pageKeys_cons_some iss rest k hKey hk]
            obtain ⟨ih1, ih2, ih3, ih4, ih5, ih6⟩ :=
              ih (saved ++ [k]) (log ++ [build_issue_obj iss]) b hmem' hnd'
            refine ⟨ih1, ih2, ?_, ?_, ?_, ?_⟩
            · obtain ⟨tail, htail⟩ := ih3
              exact ⟨[build_issue_obj iss] ++ tail, by simp [htail]⟩
            · intro k' hk'
              rcases ih4 k' hk' with h | h
              · rw [hlogKeys] at h
                rcases List.mem_append.mp h with h | h
                · exact Or.inl h
                · exact Or.inr (List.mem_cons.mpr (Or.inl (List.mem_singleton.mp h)))
              · exact Or.inr (List.mem_cons_of_mem _ h)
            · intro b' hb' k' hk'
              rcases List.mem_cons.mp hk' with rfl | h
              · exact ih6 k' (List.mem_append.mpr (Or.inr (List.mem_singleton.mpr rfl)))
              · exact ih5 b' hb' k' h
            · intro k' hk'
              exact ih6 k' (List.mem_append.mpr (Or.inl hk'))

/-! ## Fetch loop invariants -/

theorem coveredBefore_mono {pages : List (List RawIssue)}
    {log log' : List Item} {t : Nat}
    (hsub : ∀ k ∈ itemKeys log, k ∈ itemKeys log') :
    coveredBefore pages log t → coveredBefore pages log' t :=
  fun h i hi k hk => hsub k (h i hi k hk)

theorem CpInv_mono {pages : List (List RawIssue)} {log log' : List Item}
    {cp : Option Checkpoint}
    (hsub : ∀ k ∈ itemKeys log, k ∈ itemKeys log') :
    CpInv pages log cp → CpInv pages log' cp :=
  fun h c t hc ht =>
    ⟨(h c t hc ht).1, coveredBefore_mono hsub (h c t hc ht).2⟩

theorem tail_subset {log : List Item} {tail : List Item} :
    ∀ k ∈ itemKeys log, k ∈ itemKeys (log ++ tail) := by
  intro k hk
  rw [itemKeys_append]
  exact List.mem_append.mpr (Or.inl hk)

theorem getD_ne_nil_lt {pages : List (List RawIssue)} {t : Nat}
    (h : pages.getD t [] ≠ []) : t < pages.length := by
  by_contra hge
  push_neg at hge
  exact h (List.getD_eq_default _ _ hge)

theorem fetch_loop_spec (jql : String) (page_size : Nat)
    (pages : List (List RawIssue)) (fails : Nat → Bool)
    (hne : ∀ p ∈ pages, p ≠ []) :
    ∀ (fuel callNo page_index : Nat) (token : Option Nat)
      (saved : List String) (log : List Item) (budget : Option Nat)
      (cp : Option Checkpoint),
      (∀ k, k ∈ saved ↔ k ∈ itemKeys log) →
      (itemKeys log).Nodup →
      (∀ k ∈ itemKeys log, k ∈ sourceKeys pages) →
      (∀ t, token = some t → t < pages.length) →
      coveredBefore pages log (token.getD 0) →
      CpInv pages log cp →
      (∀ k, k ∈ (fetch_all_basic_resumable jql page_size pages fails
          fuel callNo page_index token saved log budget cp).saved ↔
        k ∈ itemKeys (fetch_all_basic_resumable jql page_size pages fails
          fuel callNo page_index token saved log budget cp).log) ∧
      (itemKeys (fetch_all_basic_resumable jql page_size pages fails
          fuel callNo page_index token saved log budget cp).log).Nodup ∧
      (∀ k ∈ itemKeys (fetch_all_basic_resumable jql page_size pages fails
          fuel callNo page_index token saved log budget cp).log,
        k ∈ sourceKeys pages) ∧
      (∃ tail, (fetch_all_basic_resumable jql page_size pages fails
          fuel callNo page_index token saved log budget cp).log = log ++ tail) ∧
      CpInv pages
        (fetch_all_basic_resumable jql page_size pages fails
          fuel callNo page_index token saved log budget cp).log
        (fetch_all_basic_resumable jql page_size pages fails
          fuel callNo page_index token saved log budget cp).cp ∧
      (((fetch_all_basic_resumable jql page_size pages fails
            fuel callNo page_index token saved log budget cp).out = .doneLast ∨
        (fetch_all_basic_resumable jql page_size pages fails
            fuel callNo page_index token saved log budget cp).out = .doneEmpty) →
        ∀ k ∈ sourceKeys pages,
          k ∈ itemKeys (fetch_all_basic_resumable jql page_size pages fails
            fuel callNo page_index token saved log budget cp).log) := by
  intro fuel
  induction fuel with
  | zero =>
    intro callNo page_index token saved log budget cp hmem hnd hsrc hlt hcov hcp
    refine ⟨hmem, hnd, hsrc, ⟨[], by simp [fetch_all_basic_resumable]⟩, hcp, ?_⟩
    intro h
    rcases h with h | h <;> simp [fetch_all_basic_resumable] at h
  | succ fuel ih =>
    intro callNo page_index token saved log budget cp hmem hnd hsrc hlt hcov hcp
    by_cases hf : fails callNo = true
    · cases token with
      | some t0 =>
        have heq : fetch_all_basic_resumable jql page_size pages fails
            (fuel + 1) callNo page_index (some t0) saved log budget cp =
          fetch_all_basic_resumable jql page_size pages fails
            fuel (callNo + 1) page_index none saved log budget cp := by
          simp [fetch_all_basic_resumable, hf]
        rw [heq]
        exact ih (callNo + 1) page_index none saved log budget cp hmem hnd hsrc
          (fun t ht => nomatch ht)
          (fun i hi => absurd hi (Nat.not_lt_zero i)) hcp
      | none =>
        have heq : fetch_all_basic_resumable jql page_size pages fails
            (fuel + 1) callNo page_index none saved log budget cp =
          { saved := saved, log := log, cp := cp, out := .errored } := by
          simp [fetch_all_basic_resumable, hf]
        rw [heq]
        refine ⟨hmem, hnd, hsrc, ⟨[], by simp⟩, hcp, ?_⟩
        intro h
        rcases h with h | h <;> simp at h
    · have hf' : fails callNo = false := by
        exact Bool.not_eq_true _ ▸ (by simpa using hf)
      by_cases hempty : pages.getD (token.getD 0) [] = []
      · have hemptyG : pages[token.getD 0]?.getD [] = [] := by
          rw [← List.getD_eq_getElem?_getD]
          exact hempty
        have heq : fetch_all_basic_resumable jql page_size pages fails
            (fuel + 1) callNo page_index token saved log budget cp =
          { saved := saved, log := log, cp := cp, out := .doneEmpty } := by
          simp [fetch_all_basic_resumable, hf', mkResp, hemptyG]
        rw [heq]
        refine ⟨hmem, hnd, hsrc, ⟨[], by simp⟩, hcp, ?_⟩
        intro _ k hk
        cases token with
        | some t0 =>
          have hlt0 := hlt t0 rfl
          have hmem0 : pages.getD t0 [] ∈ pages := by
            rw [List.getD_eq_getElem _ _ hlt0]
            exact List.getElem_mem hlt0
          exact absurd hempty (hne _ hmem0)
        | none =>
          cases pages with
          | nil => simp [sourceKeys] at hk
          | cons p ps =>
            simp at hempty
            exact absurd hempty (hne p (List.mem_cons_self p ps))
      · -- a non-empty page is processed
        have hemptyG : ¬ (pages[token.getD 0]?.getD [] = []) := by
          rw [← List.getD_eq_getElem?_getD]
          exact hempty
        have htlt : token.getD 0 < pages.length := getD_ne_nil_lt hempty
        have hPG : process_page (pages[token.getD 0]?.getD []) saved log budget =
            process_page (pages.getD (token.getD 0) []) saved log budget := by
          rw [List.getD_eq_getElem?_getD]
        obtain ⟨p1, p2, p3, p4, p5, p6⟩ :=
          process_page_spec (pages.getD (token.getD 0) []) saved log budget
            hmem hnd
        have hsrc1 : ∀ k ∈ itemKeys (process_page (pages.getD (token.getD 0) [])
            saved log budget).log, k ∈ sourceKeys pages := by
          intro k hk
          rcases p4 k hk with h | h
          · exact hsrc k h
          · exact (mem_sourceKeys pages k).mpr ⟨token.getD 0, htlt, h⟩
        obtain ⟨tail1, htail1⟩ := p3
        have hcov1 : coveredBefore pages
            (process_page (pages.getD (token.getD 0) []) saved log budget).log
            (token.getD 0) := by
          have : coveredBefore pages log (token.getD 0) := by
            cases token with
            | some t0 => exact hcov
            | none => exact fun i hi => absurd hi (Nat.not_lt_zero i)
          exact coveredBefore_mono (by rw [htail1]; exact tail_subset) this
        cases hleft : (process_page (pages.getD (token.getD 0) [])
            saved log budget).left with
        | none =>
          have heq : fetch_all_basic_resumable jql page_size pages fails
              (fuel + 1) callNo page_index token saved log budget cp =
            { saved := (process_page (pages.getD (token.getD 0) [])
                  saved log budget).saved,
              log := (process_page (pages.getD (token.getD 0) [])
                  saved log budget).log,
              cp := cp, out := .interrupted } := by
            simp [fetch_all_basic_resumable, hf', mkResp, hemptyG, hPG, hleft]
          rw [heq]
          refine ⟨p1, p2, hsrc1, ⟨tail1, htail1⟩, ?_, ?_⟩
          · exact CpInv_mono (by rw [htail1]; exact tail_subset) hcp
          · intro h
            rcases h with h | h <;> simp at h
        | some b1 =>
          cases hb2 : spendAppend b1 with
          | none =>
            have heq : fetch_all_basic_resumable jql page_size pages fails
                (fuel + 1) callNo page_index token saved log budget cp =
              { saved := (process_page (pages.getD (token.getD 0) [])
                    saved log budget).saved,
                log := (process_page (pages.getD (token.getD 0) [])
                    saved log budget).log,
                cp := cp, out := .interrupted } := by
              simp [fetch_all_basic_resumable, hf', mkResp, hemptyG, hPG, hleft, hb2]
            rw [heq]
            refine ⟨p1, p2, hsrc1, ⟨tail1, htail1⟩, ?_, ?_⟩
            · exact CpInv_mono (by rw [htail1]; exact tail_subset) hcp
            · intro h
              rcases h with h | h <;> simp at h
          | some b2 =>
            have hcovnext : coveredBefore pages
                (process_page (pages.getD (token.getD 0) [])
                  saved log budget).log (token.getD 0 + 1) := by
              intro i hi k hk
              rcases Nat.lt_succ_iff_lt_or_eq.mp hi with h | rfl
              · exact hcov1 i h k hk
              · exact (p1 k).mp (p5 b1 hleft k hk)
            by_cases hlast : pages.length ≤ token.getD 0 + 1
            · have heq : fetch_all_basic_resumable jql page_size pages fails
                  (fuel + 1) callNo page_index token saved log budget cp =
                { saved := (process_page (pages.getD (token.getD 0) [])
                      saved log budget).saved,
                  log := (process_page (pages.getD (token.getD 0) [])
                      saved log budget).log,
                  cp := some
                    { jql := jql, page_size := page_size,
                      nextPageToken :=
                        if token.getD 0 + 1 < pages.length
                        then some (token.getD 0 + 1) else none,
                      saved_unique := (process_page (pages.getD (token.getD 0) [])
                          saved log budget).saved.length,
                      page_index := page_index + 1,
                      isLast := decide (pages.length ≤ token.getD 0 + 1) },
                  out := .doneLast } := by
                simp [fetch_all_basic_resumable, hf', mkResp, hemptyG, hPG, hleft,
                  hb2, hlast]
              rw [heq]
              refine ⟨p1, p2, hsrc1, ⟨tail1, htail1⟩, ?_, ?_⟩
              · intro c t hc ht
                cases hc
                simp only [if_neg (by omega : ¬ (token.getD 0 + 1 < pages.length))]
                  at ht
                exact nomatch ht
              · intro _ k hk
                obtain ⟨i, hi, hki⟩ := (mem_sourceKeys pages k).mp hk
                have : i < token.getD 0 + 1 := by omega
                exact hcovnext i this k hki
            · have hlt2 : token.getD 0 + 1 < pages.length := by omega
              have heq : fetch_all_basic_resumable jql page_size pages fails
                  (fuel + 1) callNo page_index token saved log budget cp =
                fetch_all_basic_resumable jql page_size pages fails
                  fuel (callNo + 1) (page_index + 1) (some (token.getD 0 + 1))
                  (process_page (pages.getD (token.getD 0) [])
                      saved log budget).saved
                  (process_page (pages.getD (token.getD 0) [])
                      saved log budget).log
                  b2
                  (some
                    { jql := jql, page_size := page_size,
                      nextPageToken := some (token.getD 0 + 1),
                      saved_unique := (process_page (pages.getD (token.getD 0) [])
                          saved log budget).saved.length,
                      page_index := page_index + 1,
                      isLast := decide (pages.length ≤ token.getD 0 + 1) }) := by
                simp [fetch_all_basic_resumable, hf', mkResp, hemptyG, hPG, hleft,
                  hb2, hlast, hlt2]
              rw [heq]
              have hcpnext : CpInv pages
                  (process_page (pages.getD (token.getD 0) [])
                    saved log budget).log
                  (some
                    { jql := jql, page_size := page_size,
                      nextPageToken := some (token.getD 0 + 1),
                      saved_unique := (process_page (pages.getD (token.getD 0) [])
                          saved log budget).saved.length,
                      page_index := page_index + 1,
                      isLast := decide (pages.length ≤ token.getD 0 + 1) }) := by
                intro c t hc ht
                cases hc
                simp only [Option.some.injEq] at ht
                subst ht
                exact ⟨hlt2, hcovnext⟩
              obtain ⟨q1, q2, q3, q4, q5, q6⟩ :=
                ih (callNo + 1) (page_index + 1) (some (token.getD 0 + 1))
                  (process_page (pages.getD (token.getD 0) [])
                      saved log budget).saved
                  (process_page (pages.getD (token.getD 0) [])
                      saved log budget).log
                  b2 _
                  p1 p2 hsrc1
                  (fun t ht => by cases ht; exact hlt2)
                  (by simpa using hcovnext)
                  hcpnext
              refine ⟨q1, q2, q3, ?_, q5, q6⟩
              obtain ⟨tail2, htail2⟩ := q4
              exact ⟨tail1 ++ tail2, by rw [htail2, htail1, List.append_assoc]⟩

theorem process_page_none_budget (issues : List RawIssue) :
    ∀ (saved : List String) (log : List Item),
      (process_page issues saved log none).left = some none := by
  induction issues with
  | nil => intro saved log; simp [process_page]
  | cons iss rest ih =>
    intro saved log
    cases hKey : iss.key with
    | none => simpa [process_page, hKey] using ih saved log
    | some k =>
      by_cases hk : k = ""
      · simpa [process_page, hKey, hk] using ih saved log
      · by_cases hin : k ∈ saved
        · simpa [process_page, hKey, hk, hin] using ih saved log
        · simpa [process_page, hKey, hk, hin, spendAppend] using
            ih (saved ++ [k]) (log ++ [build_issue_obj iss])

theorem fetch_loop_doneLast_isLast (jql : String) (page_size : Nat)
    (pages : List (List RawIssue)) (fails : Nat → Bool) :
    ∀ (fuel callNo page_index : Nat) (token : Option Nat)
      (saved : List String) (log : List Item) (budget : Option Nat)
      (cp : Option Checkpoint),
      (fetch_all_basic_resumable jql page_size pages fails
        fuel callNo page_index token saved log budget cp).out = .doneLast →
      ∃ c, (fetch_all_basic_resumable jql page_size pages fails
        fuel callNo page_index token saved log budget cp).cp = some c ∧
        c.isLast = true := by
  intro fuel
  induction fuel with
  | zero =>
    intro callNo page_index token saved log budget cp h
    simp [fetch_all_basic_resumable] at h
  | succ fuel ih =>
    intro callNo page_index token saved log budget cp h
    by_cases hf : fails callNo = true
    · cases token with
      | some t0 =>
        have heq : fetch_all_basic_resumable jql page_size pages fails
            (fuel + 1) callNo page_index (some t0) saved log budget cp =
          fetch_all_basic_resumable jql page_size pages fails
            fuel (callNo + 1) page_index none saved log budget cp := by
          simp [fetch_all_basic_resumable, hf]
        rw [heq] at h ⊢
        exact ih (callNo + 1) page_index none saved log budget cp h
      | none =>
        rw [show fetch_all_basic_resumable jql page_size pages fails
            (fuel + 1) callNo page_index none saved log budget cp =
          { saved := saved, log := log, cp := cp, out := .errored } from by
            simp [fetch_all_basic_resumable, hf]] at h
        simp at h
    · have hf' : fails callNo = false := by
        exact Bool.not_eq_true _ ▸ (by simpa using hf)
      by_cases hempty : pages[token.getD 0]?.getD [] = []
      · rw [show fetch_all_basic_resumable jql page_size pages fails
            (fuel + 1) callNo page_index token saved log budget cp =
          { saved := saved, log := log, cp := cp, out := .doneEmpty } from by
            simp [fetch_all_basic_resumable, hf', mkResp, hempty]] at h
        simp at h
      · cases hleft : (process_page (pages[token.getD 0]?.getD [])
            saved log budget).left with
        | none =>
          rw [show fetch_all_basic_resumable jql page_size pages fails
              (fuel + 1) callNo page_index token saved log budget cp =
            { saved := (process_page (pages[token.getD 0]?.getD [])
                  saved log budget).saved,
              log := (process_page (pages[token.getD 0]?.getD [])
                  saved log budget).log,
              cp := cp, out := .interrupted } from by
              simp [fetch_all_basic_resumable, hf', mkResp, hempty, hleft]] at h
          simp at h
        | some b1 =>
          cases hb2 : spendAppend b1 with
          | none =>
            rw [show fetch_all_basic_resumable jql page_size pages fails
                (fuel + 1) callNo page_index token saved log budget cp =
              { saved := (process_page (pages[token.getD 0]?.getD [])
                    saved log budget).saved,
                log := (process_page (pages[token.getD 0]?.getD [])
                    saved log budget).log,
                cp := cp, out := .interrupted } from by
                simp [fetch_all_basic_resumable, hf', mkResp, hempty, hleft,
                  hb2]] at h
            simp at h
          | some b2 =>
            by_cases hlast : pages.length ≤ token.getD 0 + 1
            · rw [show fetch_all_basic_resumable jql page_size pages fails
                  (fuel + 1) callNo page_index token saved log budget cp =
                { saved := (process_page (pages[token.getD 0]?.getD [])
                      saved log budget).saved,
                  log := (process_page (pages[token.getD 0]?.getD [])
                      saved log budget).log,
                  cp := some
                    { jql := jql, page_size := page_size,
                      nextPageToken :=
                        if token.getD 0 + 1 < pages.length
                        then some (token.getD 0 + 1) else none,
                      saved_unique := (process_page (pages[token.getD 0]?.getD [])
                          saved log budget).saved.length,
                      page_index := page_index + 1,
                      isLast := decide (pages.length ≤ token.getD 0 + 1) },
                  out := .doneLast } from by
                  simp [fetch_all_basic_resumable, hf', mkResp, hempty, hleft,
                    hb2, hlast]]
              exact ⟨_, rfl, by simpa using hlast⟩
            · have heq : fetch_all_basic_resumable jql page_size pages fails
                  (fuel + 1) callNo page_index token saved log budget cp =
                fetch_all_basic_resumable jql page_size pages fails
                  fuel (callNo + 1) (page_index + 1) (some (token.getD 0 + 1))
                  (process_page (pages[token.getD 0]?.getD [])
                      saved log budget).saved
                  (process_page (pages[token.getD 0]?.getD [])
                      saved log budget).log
                  b2
                  (some
                    { jql := jql, page_size := page_size,
                      nextPageToken := some (token.getD 0 + 1),
                      saved_unique := (process_page (pages[token.getD 0]?.getD [])
                          saved log budget).saved.length,
                      page_index := page_index + 1,
                      isLast := decide (pages.length ≤ token.getD 0 + 1) }) := by
                simp [fetch_all_basic_resumable, hf', mkResp, hempty, hleft,
                  hb2, hlast, Nat.lt_of_not_le (fun hc => hlast hc)]
              rw [heq] at h ⊢
              exact ih _ _ _ _ _ _ _ h

theorem fetch_loop_progress (jql : String) (page_size : Nat)
    (pages : List (List RawIssue)) (fails : Nat → Bool) :
    ∀ (fuel callNo page_index : Nat) (token : Option Nat)
      (saved : List String) (log : List Item) (cp : Option Checkpoint),
      (∀ n, callNo ≤ n → fails n = false) →
      1 ≤ fuel →
      pages.length ≤ token.getD 0 + fuel →
      ((fetch_all_basic_resumable jql page_size pages fails
          fuel callNo page_index token saved log none cp).out = .doneLast ∨
        (fetch_all_basic_resumable jql page_size pages fails
          fuel callNo page_index token saved log none cp).out = .doneEmpty) := by
  intro fuel
  induction fuel with
  | zero =>
    intro callNo page_index token saved log cp hfails h1 h2
    exact absurd h1 (by omega)
  | succ fuel ih =>
    intro callNo page_index token saved log cp hfails h1 h2
    have hf' : fails callNo = false := hfails callNo (Nat.le_refl callNo)
    by_cases hempty : pages[token.getD 0]?.getD [] = []
    · rw [show fetch_all_basic_resumable jql page_size pages fails
          (fuel + 1) callNo page_index token saved log none cp =
        { saved := saved, log := log, cp := cp, out := .doneEmpty } from by
          simp [fetch_all_basic_resumable, hf', mkResp, hempty]]
      exact Or.inr rfl
    · have hleft : (process_page (pages[token.getD 0]?.getD [])
          saved log none).left = some none :=
        process_page_none_budget _ _ _
      by_cases hlast : pages.length ≤ token.getD 0 + 1
      · rw [show fetch_all_basic_resumable jql page_size pages fails
            (fuel + 1) callNo page_index token saved log none cp =
          { saved := (process_page (pages[token.getD 0]?.getD [])
                saved log none).saved,
            log := (process_page (pages[token.getD 0]?.getD [])
                saved log none).log,
            cp := some
              { jql := jql, page_size := page_size,
                nextPageToken :=
                  if token.getD 0 + 1 < pages.length
                  then some (token.getD 0 + 1) else none,
                saved_unique := (process_page (pages[token.getD 0]?.getD [])
                    saved log none).saved.length,
                page_index := page_index + 1,
                isLast := decide (pages.length ≤ token.getD 0 + 1) },
            out := .doneLast } from by
            simp [fetch_all_basic_resumable, hf', mkResp, hempty, hleft,
              spendAppend, hlast]]
        exact Or.inl rfl
      · have heq : fetch_all_basic_resumable jql page_size pages fails
            (fuel + 1) callNo page_index token saved log none cp =
          fetch_all_basic_resumable jql page_size pages fails
            fuel (callNo + 1) (page_index + 1) (some (token.getD 0 + 1))
            (process_page (pages[token.getD 0]?.getD [])
                saved log none).saved
            (process_page (pages[token.getD 0]?.getD [])
                saved log none).log
            none
            (some
              { jql := jql, page_size := page_size,
                nextPageToken := some (token.getD 0 + 1),
                saved_unique := (process_page (pages[token.getD 0]?.getD [])
                    saved log none).saved.length,
                page_index := page_index + 1,
                isLast := decide (pages.length ≤ token.getD 0 + 1) }) := by
          simp [fetch_all_basic_resumable, hf', mkResp, hempty, hleft,
            spendAppend, hlast, Nat.lt_of_not_le (fun hc => hlast hc)]
        rw [heq]
        exact ih (callNo + 1) (page_index + 1) (some (token.getD 0 + 1))
          _ _ _ (fun n hn => hfails n (by omega)) (by omega) (by simp; omega)

theorem runFetchOnce_spec (jql : String) (page_size : Nat)
    (pages : List (List RawIssue)) (fails : Nat → Bool) (tryUse : Bool)
    (fuel : Nat) (budget : Option Nat) (d : DiskState)
    (hne : ∀ p ∈ pages, p ≠ []) (hinv : DiskInv pages d) :
    DiskInv pages (runFetchOnce jql page_size pages fails tryUse
      fuel budget d).1 ∧
    (∃ tail, (runFetchOnce jql page_size pages fails tryUse
      fuel budget d).1.log = d.log ++ tail) ∧
    (((runFetchOnce jql page_size pages fails tryUse fuel budget d).2 =
        .doneLast ∨
      (runFetchOnce jql page_size pages fails tryUse fuel budget d).2 =
        .doneEmpty) →
      ∀ k ∈ sourceKeys pages,
        k ∈ itemKeys (runFetchOnce jql page_size pages fails tryUse
          fuel budget d).1.log) := by
  obtain ⟨hnd, hsrc, hcp⟩ := hinv
  have hmem := fun k => mem_load_saved_keys d.log k
  set token :=
    (if tryUse then
      match d.cp with
      | some c => c.nextPageToken
      | none => none
    else none) with htokdef
  have hlt : ∀ t, token = some t → t < pages.length := by
    intro t ht
    rw [htokdef] at ht
    by_cases htry : tryUse <;> simp [htry] at ht
    cases hdcp : d.cp with
    | none =>
      rw [hdcp] at ht
      simp at ht
    | some c =>
      rw [hdcp] at ht
      simp at ht
      exact (hcp c t hdcp ht).1
  have hcov : coveredBefore pages d.log (token.getD 0) := by
    rw [htokdef]
    by_cases htry : tryUse
    · simp only [htry, if_true]
      cases hdcp : d.cp with
      | none =>
        intro i hi
        simp at hi
      | some c =>
        cases hntok : c.nextPageToken with
        | none =>
          intro i hi
          simp [hntok] at hi
        | some t =>
          have := (hcp c t hdcp hntok).2
          simpa [hntok] using this
    · simp only [htry, if_false]
      intro i hi
      simp at hi
  obtain ⟨q1, q2, q3, q4, q5, q6⟩ :=
    fetch_loop_spec jql page_size pages fails hne fuel 0 0 token
      (load_saved_keys d.log) d.log budget d.cp hmem hnd hsrc hlt hcov hcp
  exact ⟨⟨q2, q3, q5⟩, q4, q6⟩

theorem fetchTrace_inv (jql : String) (page_size : Nat)
    (pages : List (List RawIssue)) (runs : List FetchRunSpec)
    (hne : ∀ p ∈ pages, p ≠ []) :
    DiskInv pages (fetchTrace jql page_size pages runs) := by
  have hstart : DiskInv pages { log := ([] : List Item), cp := none } := by
    refine ⟨by simp [itemKeys, keysOf], ?_, ?_⟩
    · intro k hk
      simp [itemKeys, keysOf] at hk
    · intro c t hc
      exact nomatch hc
  have hstep : ∀ (rs : List FetchRunSpec) (d : DiskState), DiskInv pages d →
      DiskInv pages (rs.foldl (fun d r =>
        (runFetchOnce jql page_size pages r.fails true r.fuel r.budget d).1)
        d) := by
    intro rs
    induction rs with
    | nil => intro d h; exact h
    | cons r rest ih =>
      intro d h
      exact ih _ ((runFetchOnce_spec jql page_size pages r.fails true
        r.fuel r.budget d hne h).1)
  exact hstep runs _ hstart

/-! ## Extractor lemmas -/

theorem char_eq_of_toNat_eq {c d : Char} (h : c.toNat = d.toNat) : c = d :=
  Char.ext (UInt32.ext h)

theorem lowerChar_isAlphanum {c : Char} (h : c.isAlphanum = true) :
    (lowerChar c).isAlphanum = true := by
  unfold lowerChar
  split <;> first | decide | exact h

theorem lowerChar_not_upper (c : Char) : (lowerChar c).isUpper = false := by
  unfold lowerChar
  split
  case _ => decide
  case _ => decide
  case _ => decide
  case _ => decide
  case _ => decide
  case _ => decide
  case _ => decide
  case _ => decide
  case _ => decide
  case _ => decide
  case _ => decide
  case _ => decide
  case _ => decide
  case _ => decide
  case _ => decide
  case _ => decide
  case _ => decide
  case _ => decide
  case _ => decide
  case _ => decide
  case _ => decide
  case _ => decide
  case _ => decide
  case _ => decide
  case _ => decide
  case _ => decide
  next x hA hB hC hD hE hF hG hH hI hJ hK hL hM hN hO hP hQ hR hS hT hU hV
      hW hX hY hZ =>
    have n01 : c.toNat ≠ 65 := fun h => hA (char_eq_of_toNat_eq h)
    have n02 : c.toNat ≠ 66 := fun h => hB (char_eq_of_toNat_eq h)
    have n03 : c.toNat ≠ 67 := fun h => hC (char_eq_of_toNat_eq h)
    have n04 : c.toNat ≠ 68 := fun h => hD (char_eq_of_toNat_eq h)
    have n05 : c.toNat ≠ 69 := fun h => hE (char_eq_of_toNat_eq h)
    have n06 : c.toNat ≠ 70 := fun h => hF (char_eq_of_toNat_eq h)
    have n07 : c.toNat ≠ 71 := fun h => hG (char_eq_of_toNat_eq h)
    have n08 : c.toNat ≠ 72 := fun h => hH (char_eq_of_toNat_eq h)
    have n09 : c.toNat ≠ 73 := fun h => hI (char_eq_of_toNat_eq h)
    have n10 : c.toNat ≠ 74 := fun h => hJ (char_eq_of_toNat_eq h)
    have n11 : c.toNat ≠ 75 := fun h => hK (char_eq_of_toNat_eq h)
    have n12 : c.toNat ≠ 76 := fun h => hL (char_eq_of_toNat_eq h)
    have n13 : c.toNat ≠ 77 := fun h => hM (char_eq_of_toNat_eq h)
    have n14 : c.toNat ≠ 78 := fun h => hN (char_eq_of_toNat_eq h)
    have n15 : c.toNat ≠ 79 := fun h => hO (char_eq_of_toNat_eq h)
    have n16 : c.toNat ≠ 80 := fun h => hP (char_eq_of_toNat_eq h)
    have n17 : c.toNat ≠ 81 := fun h => hQ (char_eq_of_toNat_eq h)
    have n18 : c.toNat ≠ 82 := fun h => hR (char_eq_of_toNat_eq h)
    have n19 : c.toNat ≠ 83 := fun h => hS (char_eq_of_toNat_eq h)
    have n20 : c.toNat ≠ 84 := fun h => hT (char_eq_of_toNat_eq h)
    have n21 : c.toNat ≠ 85 := fun h => hU (char_eq_of_toNat_eq h)
    have n22 : c.toNat ≠ 86 := fun h => hV (char_eq_of_toNat_eq h)
    have n23 : c.toNat ≠ 87 := fun h => hW (char_eq_of_toNat_eq h)
    have n24 : c.toNat ≠ 88 := fun h => hX (char_eq_of_toNat_eq h)
    have n25 : c.toNat ≠ 89 := fun h => hY (char_eq_of_toNat_eq h)
    have n26 : c.toNat ≠ 90 := fun h => hZ (char_eq_of_toNat_eq h)
    have hval : c.val.toNat = c.toNat := rfl
    simp only [Char.isUpper, Bool.and_eq_false_iff, decide_eq_false_iff_not]
    by_cases hge : c.val ≥ 65
    · right
      intro hle
      have a1 : (65 : UInt32).toNat ≤ c.val.toNat := hge
      have a2 : c.val.toNat ≤ (90 : UInt32).toNat := hle
      have e1 : (65 : UInt32).toNat = 65 := rfl
      have e2 : (90 : UInt32).toNat = 90 := rfl
      rw [e1] at a1
      rw [e2] at a2
      omega
    · left
      exact hge

theorem lowerChar_lowAlnum {c : Char} (h : c.isAlphanum = true) :
    lowAlnumChar (lowerChar c) = true := by
  simp [lowAlnumChar, lowerChar_isAlphanum h, lowerChar_not_upper c]

theorem takeAlnum_all (l : List Char) :
    ∀ c ∈ (takeAlnum l).1, c.isAlphanum = true := by
  induction l with
  | nil => simp [takeAlnum]
  | cons a t ih =>
    by_cases ha : a.isAlphanum = true
    · intro c hc
      rw [show (takeAlnum (a :: t)).1 = a :: (takeAlnum t).1 from by
        simp [takeAlnum, ha]] at hc
      rcases List.mem_cons.mp hc with rfl | hc
      · exact ha
      · exact ih c hc
    · intro c hc
      rw [show (takeAlnum (a :: t)).1 = [] from by
        simp [takeAlnum, ha]] at hc
      simp at hc

theorem wellFormedSrv_srv (run : List Char) :
    wellFormedSrv (String.mk ('s' :: 'r' :: 'v' :: '-' :: run)) =
      (run.all lowAlnumChar && decide (2 ≤ run.length) &&
        decide (run.length ≤ 10)) := rfl

theorem tryMatchSrv_wellFormed (cs : List Char)
    (p : List Char × List Char) (h : tryMatchSrv cs = some p) :
    wellFormedSrv (String.mk p.1) = true := by
  match cs with
  | [] => exact absurd h (by simp [tryMatchSrv])
  | [c1] => exact absurd h (by simp [tryMatchSrv])
  | [c1, c2] => exact absurd h (by simp [tryMatchSrv])
  | [c1, c2, c3] => exact absurd h (by simp [tryMatchSrv])
  | c1 :: c2 :: c3 :: c4 :: rest =>
    simp only [tryMatchSrv] at h
    split_ifs at h with hpre hrun
    · obtain ⟨h1, h2, h3, h4⟩ := hpre
      obtain ⟨hlen2, hlen10, _⟩ := hrun
      have hp1 : p.1 = 's' :: 'r' :: 'v' :: '-' ::
          ((takeAlnum rest).1.map lowerChar) := by
        rw [(Option.some.inj h).symm]
        simp [List.map_cons, h1, h2, h3, h4,
          show lowerChar '-' = '-' from by decide]
      rw [hp1, wellFormedSrv_srv]
      simp only [Bool.and_eq_true, List.all_eq_true, decide_eq_true_eq]
      refine ⟨⟨?_, ?_⟩, ?_⟩
      · intro x hx
        obtain ⟨c, hc, rfl⟩ := List.mem_map.mp hx
        exact lowerChar_lowAlnum (takeAlnum_all rest c hc)
      · simpa using hlen2
      · simpa using hlen10

theorem scanSrv_wellFormed :
    ∀ (fuel : Nat) (prev : Bool) (cs : List Char),
      ∀ tok ∈ scanSrv fuel prev cs, wellFormedSrv tok = true := by
  intro fuel
  induction fuel with
  | zero =>
    intro prev cs tok htok
    simp [scanSrv] at htok
  | succ fuel ih =>
    intro prev cs tok htok
    cases cs with
    | nil => simp [scanSrv] at htok
    | cons c rest =>
      cases prev with
      | true =>
        rw [show scanSrv (fuel + 1) true (c :: rest) =
            scanSrv fuel (isWordChar c) rest from by simp [scanSrv]] at htok
        exact ih (isWordChar c) rest tok htok
      | false =>
        cases hm : tryMatchSrv (c :: rest) with
        | none =>
          rw [show scanSrv (fuel + 1) false (c :: rest) =
              scanSrv fuel (isWordChar c) rest from by
            simp [scanSrv, hm]] at htok
          exact ih (isWordChar c) rest tok htok
        | some p =>
          rw [show scanSrv (fuel + 1) false (c :: rest) =
              String.mk p.1 :: scanSrv fuel true p.2 from by
            simp [scanSrv, hm]] at htok
          rcases List.mem_cons.mp htok with rfl | htok
          · exact tryMatchSrv_wellFormed (c :: rest) p hm
          · exact ih true p.2 tok htok

/-! ## Enrichment and aggregation lemmas -/

theorem aggregate_outputs_techLog (issues : List Item) (st : AnalyzeState) :
    (aggregate_outputs issues st).techLog = st.techLog := rfl

theorem aggregate_outputs_serverLog (issues : List Item) (st : AnalyzeState) :
    (aggregate_outputs issues st).serverLog = st.serverLog := rfl

theorem enrich_loop_keys_sub (svc : Nat → Nat → SvcResult)
    (done : List String) :
    ∀ (issues : List Item) (idx : Nat) (st : AnalyzeState)
      (budget : Option Nat),
      (∀ k : Option String, k ∈ st.techLog.map (fun r => r.key) →
        k ∈ st.serverLog.map (fun r => r.key)) →
      ∀ k : Option String,
        k ∈ (enrich_loop svc done issues idx st budget).techLog.map
          (fun r => r.key) →
        k ∈ (enrich_loop svc done issues idx st budget).serverLog.map
          (fun r => r.key) := by
  intro issues
  induction issues with
  | nil =>
    intro idx st budget hinv k hk
    rw [show enrich_loop svc done [] idx st budget = st from rfl] at hk ⊢
    exact hinv k hk
  | cons issue rest ih =>
    intro idx st budget hinv k hk
    by_cases hdone : keyDone issue.key done = true
    · rw [show enrich_loop svc done (issue :: rest) idx st budget =
          enrich_loop svc done rest (idx + 1) st budget from by
        simp [enrich_loop, hdone]] at hk ⊢
      exact ih (idx + 1) st budget hinv k hk
    · have hdone' : keyDone issue.key done = false := by simpa using hdone
      cases hb1 : spendAppend budget with
      | none =>
        rw [show enrich_loop svc done (issue :: rest) idx st budget = st from by
          simp [enrich_loop, hdone', hb1]] at hk ⊢
        exact hinv k hk
      | some b1 =>
        cases hb2 : spendAppend b1 with
        | none =>
          rw [show enrich_loop svc done (issue :: rest) idx st budget =
              { st with serverLog := st.serverLog ++
                [⟨issue.key, extract_servers (itemText issue)⟩] } from by
            simp [enrich_loop, hdone', hb1, hb2]] at hk ⊢
          have hk' : k ∈ st.techLog.map (fun r => r.key) := hk
          have := hinv k hk'
          simp only [List.map_append]
          exact List.mem_append.mpr (Or.inl this)
        | some b2 =>
          rw [show enrich_loop svc done (issue :: rest) idx st budget =
              enrich_loop svc done rest (idx + 1)
                { st with
                  serverLog := st.serverLog ++
                    [⟨issue.key, extract_servers (itemText issue)⟩],
                  techLog := st.techLog ++
                    [⟨issue.key, (classify_technology (itemText issue)
                      (svc idx)).1⟩] } b2 from by
            simp [enrich_loop, hdone', hb1, hb2]] at hk ⊢
          refine ih (idx + 1) _ b2 ?_ k hk
          intro k' hk'
          simp only [List.map_append] at hk' ⊢
          rcases List.mem_append.mp hk' with h | h
          · exact List.mem_append.mpr (Or.inl (hinv k' h))
          · simp at h
            subst h
            exact List.mem_append.mpr (Or.inr (by simp))

theorem enrich_loop_serverLog_from (svc : Nat → Nat → SvcResult)
    (done : List String) :
    ∀ (issues : List Item) (idx : Nat) (st : AnalyzeState)
      (budget : Option Nat) (r : ServerRec),
      r ∈ (enrich_loop svc done issues idx st budget).serverLog →
      r ∈ st.serverLog ∨ ∃ j ∈ issues, r.key = j.key := by
  intro issues
  induction issues with
  | nil =>
    intro idx st budget r hr
    exact Or.inl hr
  | cons issue rest ih =>
    intro idx st budget r hr
    by_cases hdone : keyDone issue.key done = true
    · rw [show enrich_loop svc done (issue :: rest) idx st budget =
          enrich_loop svc done rest (idx + 1) st budget from by
        simp [enrich_loop, hdone]] at hr
      rcases ih (idx + 1) st budget r hr with h | ⟨j, hj, hk⟩
      · exact Or.inl h
      · exact Or.inr ⟨j, List.mem_cons_of_mem _ hj, hk⟩
    · have hdone' : keyDone issue.key done = false := by simpa using hdone
      cases hb1 : spendAppend budget with
      | none =>
        rw [show enrich_loop svc done (issue :: rest) idx st budget = st from by
          simp [enrich_loop, hdone', hb1]] at hr
        exact Or.inl hr
      | some b1 =>
        cases hb2 : spendAppend b1 with
        | none =>
          rw [show enrich_loop svc done (issue :: rest) idx st budget =
              { st with serverLog := st.serverLog ++
                [⟨issue.key, extract_servers (itemText issue)⟩] } from by
            simp [enrich_loop, hdone', hb1, hb2]] at hr
          have hr' : r ∈ st.serverLog ++
              [⟨issue.key, extract_servers (itemText issue)⟩] := hr
          rcases List.mem_append.mp hr' with h | h
          · exact Or.inl h
          · simp at h
            subst h
            exact Or.inr ⟨issue, List.mem_cons_self issue rest, rfl⟩
        | some b2 =>
          rw [show enrich_loop svc done (issue :: rest) idx st budget =
              enrich_loop svc done rest (idx + 1)
                { st with
                  serverLog := st.serverLog ++
                    [⟨issue.key, extract_servers (itemText issue)⟩],
                  techLog := st.techLog ++
                    [⟨issue.key, (classify_technology (itemText issue)
                      (svc idx)).1⟩] } b2 from by
            simp [enrich_loop, hdone', hb1, hb2]] at hr
          rcases ih (idx + 1) _ b2 r hr with h | ⟨j, hj, hk⟩
          · have h' : r ∈ st.serverLog ++
                [⟨issue.key, extract_servers (itemText issue)⟩] := h
            rcases List.mem_append.mp h' with h'' | h''
            · exact Or.inl h''
            · simp at h''
              subst h''
              exact Or.inr ⟨issue, List.mem_cons_self issue rest, rfl⟩
          · exact Or.inr ⟨j, List.mem_cons_of_mem _ hj, hk⟩

theorem server_scan_snd_mono (l : List ServerRec) :
    ∀ (acc : List (String × Nat) × List (Option String)) (k : Option String),
      k ∈ acc.2 → k ∈ (l.foldl server_scan_step acc).2 := by
  induction l with
  | nil => intro acc k h; simpa using h
  | cons r t ih =>
    intro acc k h
    rw [List.foldl_cons]
    apply ih
    by_cases hs : r.servers = []
    · rw [show server_scan_step acc r = acc from by
        simp [server_scan_step, hs]]
      exact h
    · simp only [server_scan_step, if_neg hs]
      by_cases hk : r.key ∈ acc.2
      · simpa [hk] using h
      · simp only [if_neg hk]
        exact List.mem_append.mpr (Or.inl h)

theorem server_scan_snd_from (l : List ServerRec) :
    ∀ (acc : List (String × Nat) × List (Option String)) (k : Option String),
      k ∈ (l.foldl server_scan_step acc).2 →
      k ∈ acc.2 ∨ ∃ r ∈ l, r.key = k := by
  induction l with
  | nil => intro acc k h; exact Or.inl (by simpa using h)
  | cons r t ih =>
    intro acc k h
    rw [List.foldl_cons] at h
    rcases ih _ k h with h' | ⟨r', hr', hk⟩
    · by_cases hs : r.servers = []
      · rw [show server_scan_step acc r = acc from by
          simp [server_scan_step, hs]] at h'
        exact Or.inl h'
      · simp only [server_scan_step, if_neg hs] at h'
        by_cases hk2 : r.key ∈ acc.2
        · rw [if_pos hk2] at h'
          exact Or.inl h'
        · rw [if_neg hk2] at h'
          rcases List.mem_append.mp h' with h'' | h''
          · exact Or.inl h''
          · simp at h''
            exact Or.inr ⟨r, List.mem_cons_self r t, h''.symm⟩
    · exact Or.inr ⟨r', List.mem_cons_of_mem _ hr', hk⟩

theorem server_scan_snd_mem (l : List ServerRec) :
    ∀ (acc : List (String × Nat) × List (Option String)) (r : ServerRec),
      r ∈ l → r.servers ≠ [] →
      r.key ∈ (l.foldl server_scan_step acc).2 := by
  induction l with
  | nil => intro acc r hr; simp at hr
  | cons r0 t ih =>
    intro acc r hr hs
    rw [List.foldl_cons]
    rcases List.mem_cons.mp hr with rfl | hr'
    · apply server_scan_snd_mono
      simp only [server_scan_step, if_neg hs]
      by_cases hk : r.key ∈ acc.2
      · rw [if_pos hk]
        exact hk
      · simp only [if_neg hk]
        exact List.mem_append.mpr (Or.inr (by simp))
    · exact ih _ r hr' hs

theorem server_scan_append_dup (l : List ServerRec) (r : ServerRec)
    (hr : r ∈ l) : (server_scan (l ++ [r])).2 = (server_scan l).2 := by
  rw [server_scan, server_scan, List.foldl_append, List.foldl_cons,
    List.foldl_nil]
  by_cases hs : r.servers = []
  · simp [server_scan_step, hs]
  · have hmem : r.key ∈ (List.foldl server_scan_step ([], []) l).2 :=
      server_scan_snd_mem l ([], []) r hr hs
    simp [server_scan_step, hs, hmem]

/-! ## Claim theorems -/

/-- C3, counterexample: the claim says a raw service response of
"Database." normalizes to the allowed label `database` and is returned
without retry or fallback.  In the code, `strip` removes only backticks,
quotes and spaces, so "Database." normalizes to "database." (trailing
period kept), which is not in the allowed set: with that response on
both attempts, `classify_technology` makes two calls and returns the
fallback label. -/
theorem classify_database_dot_not_allowed :
    normalize_resp (some "Database.") = some "database." ∧
    decide (normalize_resp (some "Database.") = some "database") = false ∧
    classify_technology "db is down"
      (fun _ => SvcResult.ok (some "Database.")) = (UNCLASSIFIED_LABEL, 2) := by
  decide

/-- C3, amended: the response normalization trims whitespace and quoting
characters (backtick, single and double quote), lower-cases and keeps the
first whitespace-delimited token, but does not strip other punctuation:
"Database." normalizes to "database.", which is outside the allowed set
and leads to the retry and then the fallback, while a quoted response
like " "Database" " normalizes to `database`, which classify returns
after a single call. -/
theorem normalize_quotes_only :
    normalize_resp (some "Database.") = some "database." ∧
    decide (("database." : String) ∈ ALLOWED) = false ∧
    classify_technology "db is down"
      (fun _ => SvcResult.ok (some "Database.")) = (UNCLASSIFIED_LABEL, 2) ∧
    normalize_resp (some " \"Database\" ") = some "database" ∧
    classify_technology "db is down"
      (fun _ => SvcResult.ok (some " \"Database\" ")) = ("database", 1) := by
  decide

/-- C5, counterexample: the claim says a transport/remote error on the
first classification request is retried exactly once before the
fallback.  In the code, the exception from the first attempt is caught by
the surrounding `except`, which returns the fallback immediately: only
one call is made, not two. -/
theorem transport_error_no_retry :
    classify_technology "network outage" (fun _ => SvcResult.fail) =
      (UNCLASSIFIED_LABEL, 1) ∧
    decide ((classify_technology "network outage"
      (fun _ => SvcResult.fail)).2 = 2) = false := by
  decide

/-- C5, amended: a transport error on either attempt makes
`classify_technology` return the fallback label at once, without any
retry of the failed request; the single retry happens only when the
first attempt succeeds but normalizes to a label outside the allowed
set, and the second attempt's transport failure or bad label again
yields the fallback. -/
theorem classify_retry_only_on_bad_label
    (text : String) (responses : Nat → SvcResult)
    (htruthy : truthyText text = true) :
    (responses 0 = SvcResult.fail →
      classify_technology text responses = (UNCLASSIFIED_LABEL, 1)) ∧
    (∀ l, ask_once (responses 0) = some l → l ∉ ALLOWED →
      classify_technology text responses =
        (match ask_once (responses 1) with
         | none => UNCLASSIFIED_LABEL
         | some l2 => if l2 ∈ ALLOWED then l2 else UNCLASSIFIED_LABEL, 2)) := by
  constructor
  · intro h0
    simp [classify_technology, htruthy, h0, ask_once]
  · intro l hl hnot
    rw [classify_technology, if_neg (by simp [htruthy]), hl]
    show (if l ∈ ALLOWED then (l, 1)
      else match ask_once (responses 1) with
        | none => (UNCLASSIFIED_LABEL, 2)
        | some l2 => (if l2 ∈ ALLOWED then l2 else UNCLASSIFIED_LABEL, 2)) = _
    rw [if_neg hnot]
    cases h1 : ask_once (responses 1) with
    | none => rfl
    | some l2 => rfl

/-- Witness for the amended C5 at a concrete input: with a service that
is down, one call is made and the fallback label returned. -/
theorem classify_retry_only_on_bad_label_witness :
    classify_technology "server srv-aa1 offline" (fun _ => SvcResult.fail) =
      (UNCLASSIFIED_LABEL, 1) :=
  (classify_retry_only_on_bad_label "server srv-aa1 offline"
    (fun _ => SvcResult.fail) (by decide)).1 rfl

/-- C7: the Entity Extractor returns, in text order, the whole-token
matches of the literal prefix, separator and a 2-10 character
alphanumeric suffix, case-insensitively and lower-cased, keeping
repeats; empty input yields the empty sequence; the given sentence
yields exactly two occurrences of `srv-ab1`; and every returned token
has the canonical lower-case shape. -/
theorem extract_servers_spec :
    extract_servers "" = [] ∧
    extract_servers "srv-ab1 mentions srv-AB1 too" = ["srv-ab1", "srv-ab1"] ∧
    extract_servers "xsrv-ab1" = [] ∧
    extract_servers "srv-a" = [] ∧
    extract_servers "srv-abcdefghijk" = [] ∧
    (∀ (s : String), ∀ tok ∈ extract_servers s, wellFormedSrv tok = true) := by
  refine ⟨by decide, by decide, by decide, by decide, by decide, ?_⟩
  intro s tok htok
  rw [extract_servers] at htok
  by_cases hs : s = ""
  · rw [if_pos hs] at htok
    simp at htok
  · rw [if_neg hs] at htok
    exact scanSrv_wellFormed s.data.length false s.data tok htok

/-- Witness for C7: a concrete extracted token is well formed. -/
theorem extract_servers_spec_witness : wellFormedSrv "srv-xy9" = true :=
  extract_servers_spec.2.2.2.2.2 "srv-xy9 is up" "srv-xy9" (by decide)

/-- C8: the Aggregator is an idempotent pure function of the two logs
and the collection: it never reads the previous artifacts (the same
output results whatever artifacts were on disk), never touches the logs,
and running it twice produces identical artifacts. -/
theorem aggregate_outputs_idempotent :
    ∀ (issues : List Item) (st : AnalyzeState)
      (tc sc : List (String × Nat)) (un : List (Option String × String)),
      aggregate_outputs issues (aggregate_outputs issues st) =
        aggregate_outputs issues st ∧
      (aggregate_outputs issues st).techLog = st.techLog ∧
      (aggregate_outputs issues st).serverLog = st.serverLog ∧
      aggregate_outputs issues
        { st with techCounts := tc, serverCounts := sc, unresolved := un } =
        aggregate_outputs issues st := by
  intro issues st tc sc un
  exact ⟨rfl, rfl, rfl, rfl⟩

/-- C2, counterexample: the claim says the technology counts, server
counts and unresolved report are per-key folds, so a duplicate log line
for an already-recorded key leaves all outputs unchanged.  In the code
the counters count log lines: duplicating the single "database" line
turns its count from 1 into 2. -/
theorem aggregate_duplicate_changes_counts :
    (aggregate_outputs []
      { emptyAnalyzeState with
        techLog := [⟨some "T-1", "database"⟩,
          ⟨some "T-1", "database"⟩] }).techCounts = [("database", 2)] ∧
    (aggregate_outputs []
      { emptyAnalyzeState with
        techLog := [⟨some "T-1", "database"⟩] }).techCounts =
      [("database", 1)] ∧
    decide ((aggregate_outputs []
      { emptyAnalyzeState with
        techLog := [⟨some "T-1", "database"⟩,
          ⟨some "T-1", "database"⟩] }).techCounts =
      (aggregate_outputs []
        { emptyAnalyzeState with
          techLog := [⟨some "T-1", "database"⟩] }).techCounts) = false := by
  decide

/-- C2, amended: of the Aggregator's three outputs only the unresolved
report folds the log by key presence: appending a duplicate of an
existing record to each log leaves the unresolved report unchanged,
while the frequency counts count log lines and therefore do change
(see the counterexample). -/
theorem aggregate_duplicate_unresolved_unchanged
    (issues : List Item) (st : AnalyzeState) (r : ServerRec) (r' : TechRec)
    (hr : r ∈ st.serverLog) (_hr' : r' ∈ st.techLog) :
    (aggregate_outputs issues
      { st with serverLog := st.serverLog ++ [r],
                techLog := st.techLog ++ [r'] }).unresolved =
    (aggregate_outputs issues st).unresolved := by
  have hfield : ({ st with serverLog := st.serverLog ++ [r],
                           techLog := st.techLog ++ [r'] } :
      AnalyzeState).serverLog = st.serverLog ++ [r] := rfl
  simp only [aggregate_outputs, hfield]
  rw [server_scan_append_dup st.serverLog r hr]

/-- Witness for the amended C2 at a concrete state. -/
theorem aggregate_duplicate_unresolved_unchanged_witness :
    (aggregate_outputs [wItemA]
      { emptyAnalyzeState with
        serverLog := [⟨some "A-1", ["srv-xx1"]⟩] ++ [⟨some "A-1", ["srv-xx1"]⟩],
        techLog := [⟨some "A-1", "database"⟩] ++
          [⟨some "A-1", "database"⟩] }).unresolved =
    (aggregate_outputs [wItemA]
      { emptyAnalyzeState with
        serverLog := [⟨some "A-1", ["srv-xx1"]⟩],
        techLog := [⟨some "A-1", "database"⟩] }).unresolved :=
  aggregate_duplicate_unresolved_unchanged [wItemA]
    { emptyAnalyzeState with
      serverLog := [⟨some "A-1", ["srv-xx1"]⟩],
      techLog := [⟨some "A-1", "database"⟩] }
    ⟨some "A-1", ["srv-xx1"]⟩ ⟨some "A-1", "database"⟩
    (by decide) (by decide)

/-- C9: after any number of enrichment runs, each possibly interrupted
between appends, every key present in the classification log is also
present in the extraction log: the extraction record is appended before
the classification call, so a key can be in the extraction log only, but
never in the classification log only. -/
theorem classification_keys_subset_extraction :
    ∀ (runs : List EnrichRunSpec) (k : String),
      k ∈ load_processed_keys_tech (enrichTrace runs).techLog →
      k ∈ load_processed_keys_servers (enrichTrace runs).serverLog := by
  have hInv : ∀ (runs : List EnrichRunSpec) (st : AnalyzeState),
      (∀ k : Option String, k ∈ st.techLog.map (fun r => r.key) →
        k ∈ st.serverLog.map (fun r => r.key)) →
      ∀ k : Option String,
        k ∈ (runs.foldl (fun st r =>
            analyze_main r.limit r.issues r.svc st r.budget) st).techLog.map
          (fun r => r.key) →
        k ∈ (runs.foldl (fun st r =>
            analyze_main r.limit r.issues r.svc st r.budget) st).serverLog.map
          (fun r => r.key) := by
    intro runs
    induction runs with
    | nil => intro st h; exact h
    | cons r rest ih =>
      intro st h
      rw [List.foldl_cons]
      apply ih
      intro k hk
      exact enrich_loop_keys_sub r.svc
        ((load_processed_keys_tech st.techLog).filter
          (fun k => decide (k ∈ load_processed_keys_servers st.serverLog)))
        (if 0 < r.limit then r.issues.take r.limit else r.issues)
        0 st r.budget h k hk
  intro runs k hk
  rw [load_processed_keys_tech, mem_dedupKeys] at hk
  obtain ⟨hmem, hk0⟩ := hk
  rw [load_processed_keys_servers, mem_dedupKeys]
  refine ⟨?_, hk0⟩
  exact hInv runs emptyAnalyzeState
    (by intro k' h; simp [emptyAnalyzeState] at h) (some k) hmem

/-- Witness for C9: after one concrete run, the key recorded in the
classification log is in the extraction log too. -/
theorem classification_keys_subset_extraction_witness :
    ("A-1" : String) ∈
      load_processed_keys_servers (enrichTrace [wEnrichRun]).serverLog :=
  classification_keys_subset_extraction [wEnrichRun] "A-1" (by decide)

/-- C10: when a positive cap limits an enrichment run to the first
`limit` of more than `limit` items, the Aggregator still runs over the
full collection: every item beyond the cap whose key differs from all
processed keys has no extraction record and is listed in the unresolved
report even though it was never processed. -/
theorem capped_run_unresolved_beyond_cap
    (limit : Nat) (issues : List Item) (svc : Nat → Nat → SvcResult)
    (budget : Option Nat)
    (hpos : 0 < limit) (_hlt : limit < issues.length)
    (hdisjoint : ∀ i ∈ issues.drop limit, ∀ j ∈ issues.take limit,
      i.key ≠ j.key) :
    ∀ i ∈ issues.drop limit,
      (i.key, i.summary) ∈
        (analyze_main limit issues svc emptyAnalyzeState budget).unresolved := by
  intro i hi
  have hmain : analyze_main limit issues svc emptyAnalyzeState budget =
      aggregate_outputs issues
        (enrich_loop svc
          ((load_processed_keys_tech emptyAnalyzeState.techLog).filter
            (fun k => decide (k ∈
              load_processed_keys_servers emptyAnalyzeState.serverLog)))
          (issues.take limit) 0 emptyAnalyzeState budget) := by
    rw [analyze_main, if_pos hpos]
  rw [hmain]
  have hnotin : i.key ∉ (server_scan
      (enrich_loop svc
        ((load_processed_keys_tech emptyAnalyzeState.techLog).filter
          (fun k => decide (k ∈
            load_processed_keys_servers emptyAnalyzeState.serverLog)))
        (issues.take limit) 0 emptyAnalyzeState budget).serverLog).2 := by
    intro hin
    rw [server_scan] at hin
    rcases server_scan_snd_from _ _ _ hin with h | ⟨r, hr, hk⟩
    · simp at h
    · rcases enrich_loop_serverLog_from svc _ (issues.take limit) 0
        emptyAnalyzeState budget r hr with h' | ⟨j, hj, hkj⟩
      · simp [emptyAnalyzeState] at h'
      · exact hdisjoint i hi j hj (hk.symm.trans hkj)
  simp only [aggregate_outputs]
  apply List.mem_map.mpr
  refine ⟨i, ?_, rfl⟩
  apply List.mem_filter.mpr
  exact ⟨List.drop_subset limit issues hi, decide_eq_true hnotin⟩

/-- Witness for C10: with a cap of 1 over two items with distinct keys,
the second item appears in the unresolved report. -/
theorem capped_run_unresolved_beyond_cap_witness :
    (some "A-2", "s2") ∈
      (analyze_main 1 [wItemA, wItemB] wSvcFail emptyAnalyzeState
        none).unresolved :=
  capped_run_unresolved_beyond_cap 1 [wItemA, wItemB] wSvcFail none
    (by decide) (by decide) (by decide) wItemB (by decide)

/-- C1: over any sequence of fetch runs against the same partial log and
checkpoint (interrupted and resumed any number of times, with any pattern
of rejected requests forcing restarts from the beginning), if the last
run completes (by the is-last flag or an empty page), the materialized
consolidated collection contains each truthy key served by the source
exactly once: its key list has no duplicates, every source key is in it
and nothing else is. -/
theorem fetch_materialize_exactly_once
    (jql : String) (page_size : Nat) (pages : List (List RawIssue))
    (runs : List FetchRunSpec) (fails : Nat → Bool) (fuel : Nat)
    (budget : Option Nat)
    (hne : ∀ p ∈ pages, p ≠ [])
    (hdone : (runFetchOnce jql page_size pages fails true fuel budget
        (fetchTrace jql page_size pages runs)).2 = Outcome.doneLast ∨
      (runFetchOnce jql page_size pages fails true fuel budget
        (fetchTrace jql page_size pages runs)).2 = Outcome.doneEmpty) :
    (itemKeys (materialize_json_from_jsonl
      (runFetchOnce jql page_size pages fails true fuel budget
        (fetchTrace jql page_size pages runs)).1.log)).Nodup ∧
    (∀ k ∈ sourceKeys pages,
      k ∈ itemKeys (materialize_json_from_jsonl
        (runFetchOnce jql page_size pages fails true fuel budget
          (fetchTrace jql page_size pages runs)).1.log)) ∧
    (∀ k ∈ itemKeys (materialize_json_from_jsonl
        (runFetchOnce jql page_size pages fails true fuel budget
          (fetchTrace jql page_size pages runs)).1.log),
      k ∈ sourceKeys pages) := by
  obtain ⟨hinv', _, hcompl⟩ :=
    runFetchOnce_spec jql page_size pages fails true fuel budget
      (fetchTrace jql page_size pages runs) hne
      (fetchTrace_inv jql page_size pages runs hne)
  rw [materialize_eq]
  exact ⟨hinv'.1, hcompl hdone, hinv'.2.1⟩

/-- Witness for C1: one interrupted run, then a resumed run whose stored
cursor is rejected; the final collection holds both keys exactly once. -/
theorem fetch_materialize_exactly_once_witness :
    (itemKeys (materialize_json_from_jsonl
      (runFetchOnce "project = TON" 10 wPages wFailFirst true 5 none
        (fetchTrace "project = TON" 10 wPages wRuns)).1.log)).Nodup ∧
    (∀ k ∈ sourceKeys wPages,
      k ∈ itemKeys (materialize_json_from_jsonl
        (runFetchOnce "project = TON" 10 wPages wFailFirst true 5 none
          (fetchTrace "project = TON" 10 wPages wRuns)).1.log)) ∧
    (∀ k ∈ itemKeys (materialize_json_from_jsonl
        (runFetchOnce "project = TON" 10 wPages wFailFirst true 5 none
          (fetchTrace "project = TON" 10 wPages wRuns)).1.log),
      k ∈ sourceKeys wPages) :=
  fetch_materialize_exactly_once "project = TON" 10 wPages wRuns wFailFirst
    5 none (by decide) (Or.inl (by decide))

/-- C4, counterexample: the claim says any successful exit leaves a
checkpoint whose is-last field is true, whether the loop ends on the
is-last flag or on an empty page.  When the loop ends on an empty page
no checkpoint is written: over a source whose page 0 is not flagged last
and whose next page is empty, the run exits successfully with the stale
checkpoint of page 0 on disk, whose is-last field is false. -/
theorem checkpoint_stale_on_empty_page_exit :
    (runFetchOnce "project = TON" 10 wPagesEmptyTail wNoFail true 5 none
      { log := [], cp := none }).2 = Outcome.doneEmpty ∧
    ((runFetchOnce "project = TON" 10 wPagesEmptyTail wNoFail true 5 none
      { log := [], cp := none }).1.cp.map Checkpoint.isLast) = some false ∧
    decide (((runFetchOnce "project = TON" 10 wPagesEmptyTail wNoFail true 5
      none { log := [], cp := none }).1.cp.map Checkpoint.isLast) =
        some true) = false := by
  decide

/-- C4, amended: when an uninterrupted run exits through the is-last
branch, the checkpoint on disk reflects "no more pages": a run ending in
the is-last outcome leaves a checkpoint whose is-last field is true.
(When it exits on an empty page no checkpoint is written, so the
checkpoint on disk may be absent or stale, as the counterexample
shows.) -/
theorem checkpoint_islast_on_islast_exit
    (jql : String) (page_size : Nat) (pages : List (List RawIssue))
    (fails : Nat → Bool) (tryUse : Bool) (fuel : Nat) (budget : Option Nat)
    (d : DiskState)
    (hdone : (runFetchOnce jql page_size pages fails tryUse fuel budget d).2 =
      Outcome.doneLast) :
    ∃ c, (runFetchOnce jql page_size pages fails tryUse fuel budget d).1.cp =
      some c ∧ c.isLast = true := by
  simp only [runFetchOnce] at hdone ⊢
  exact fetch_loop_doneLast_isLast jql page_size pages fails fuel 0 0 _ _ _
    budget _ hdone

/-- Witness for the amended C4: a one-page source exits through the
is-last branch and leaves is-last true on disk. -/
theorem checkpoint_islast_on_islast_exit_witness :
    ∃ c, (runFetchOnce "project = TON" 10 wPagesOne wNoFail true 3 none
      { log := [], cp := none }).1.cp = some c ∧ c.isLast = true :=
  checkpoint_islast_on_islast_exit "project = TON" 10 wPagesOne wNoFail true
    3 none { log := [], cp := none } (by decide)

theorem runFetchOnce_token (jql : String) (page_size : Nat)
    (pages : List (List RawIssue)) (fails : Nat → Bool) (fuel : Nat)
    (budget : Option Nat) (d : DiskState) (c : Checkpoint) (t0 : Nat)
    (hcp : d.cp = some c) (htok : c.nextPageToken = some t0) :
    runFetchOnce jql page_size pages fails true fuel budget d =
      ({ log := (fetch_all_basic_resumable jql page_size pages fails fuel 0 0
          (some t0) (load_saved_keys d.log) d.log budget d.cp).log,
         cp := (fetch_all_basic_resumable jql page_size pages fails fuel 0 0
          (some t0) (load_saved_keys d.log) d.log budget d.cp).cp },
       (fetch_all_basic_resumable jql page_size pages fails fuel 0 0
          (some t0) (load_saved_keys d.log) d.log budget d.cp).out) := by
  simp only [runFetchOnce, hcp, htok, if_true]

/-- C6: when a page request is rejected while a stored cursor was in use
(the checkpoint on disk carries a continuation token and the first
request fails), the Fetch Pipeline clears the cursor and restarts from
the beginning: the run succeeds, only appends to the existing log, and
the log still holds each key at most once while covering every source
key; the same rejection on a cursor-less (fresh) request propagates as a
fatal error that leaves the disk untouched. -/
theorem cursor_rejection_restart_dedup
    (jql : String) (page_size : Nat) (pages : List (List RawIssue))
    (runs : List FetchRunSpec) (c : Checkpoint) (t0 : Nat)
    (hne : ∀ p ∈ pages, p ≠ [])
    (hcp : (fetchTrace jql page_size pages runs).cp = some c)
    (htok : c.nextPageToken = some t0) :
    (((runFetchOnce jql page_size pages (fun n => n == 0) true
        (pages.length + 2) none (fetchTrace jql page_size pages runs)).2 =
          Outcome.doneLast ∨
      (runFetchOnce jql page_size pages (fun n => n == 0) true
        (pages.length + 2) none (fetchTrace jql page_size pages runs)).2 =
          Outcome.doneEmpty) ∧
     (∃ tail, (runFetchOnce jql page_size pages (fun n => n == 0) true
        (pages.length + 2) none (fetchTrace jql page_size pages runs)).1.log =
          (fetchTrace jql page_size pages runs).log ++ tail) ∧
     (itemKeys (runFetchOnce jql page_size pages (fun n => n == 0) true
        (pages.length + 2) none
        (fetchTrace jql page_size pages runs)).1.log).Nodup ∧
     (∀ k ∈ sourceKeys pages,
       k ∈ itemKeys (runFetchOnce jql page_size pages (fun n => n == 0) true
        (pages.length + 2) none
        (fetchTrace jql page_size pages runs)).1.log)) ∧
    runFetchOnce jql page_size pages (fun n => n == 0) false
        (pages.length + 2) none (fetchTrace jql page_size pages runs) =
      ((fetchTrace jql page_size pages runs), Outcome.errored) := by
  have hsucc : (runFetchOnce jql page_size pages (fun n => n == 0) true
      (pages.length + 2) none (fetchTrace jql page_size pages runs)).2 =
        Outcome.doneLast ∨
      (runFetchOnce jql page_size pages (fun n => n == 0) true
        (pages.length + 2) none (fetchTrace jql page_size pages runs)).2 =
        Outcome.doneEmpty := by
    rw [runFetchOnce_token jql page_size pages (fun n => n == 0)
      (pages.length + 2) none _ c t0 hcp htok]
    rw [show fetch_all_basic_resumable jql page_size pages (fun n => n == 0)
        (pages.length + 2) 0 0 (some t0)
        (load_saved_keys (fetchTrace jql page_size pages runs).log)
        (fetchTrace jql page_size pages runs).log none
        (fetchTrace jql page_size pages runs).cp =
      fetch_all_basic_resumable jql page_size pages (fun n => n == 0)
        (pages.length + 1) 1 0 none
        (load_saved_keys (fetchTrace jql page_size pages runs).log)
        (fetchTrace jql page_size pages runs).log none
        (fetchTrace jql page_size pages runs).cp from by
      simp [fetch_all_basic_resumable]]
    exact fetch_loop_progress jql page_size pages (fun n => n == 0)
      (pages.length + 1) 1 0 none
      (load_saved_keys (fetchTrace jql page_size pages runs).log)
      (fetchTrace jql page_size pages runs).log
      (fetchTrace jql page_size pages runs).cp
      (fun n hn => by simp; omega) (by omega) (by simp)
  obtain ⟨hinv', htail, hcompl⟩ :=
    runFetchOnce_spec jql page_size pages (fun n => n == 0) true
      (pages.length + 2) none (fetchTrace jql page_size pages runs) hne
      (fetchTrace_inv jql page_size pages runs hne)
  refine ⟨⟨hsucc, htail, hinv'.1, hcompl hsucc⟩, ?_⟩
  simp only [runFetchOnce]
  rw [show pages.length + 2 = (pages.length + 1) + 1 from rfl]
  simp [fetch_all_basic_resumable]

/-- Witness for C6: the concrete trace of `wRuns` leaves the checkpoint
`wCp`; the resumed run whose stored cursor is rejected succeeds without
duplicating the already-saved issue, and a cursor-less run with the same
failure is fatal. -/
theorem cursor_rejection_restart_dedup_witness :
    (((runFetchOnce "project = TON" 10 wPages (fun n => n == 0) true
        (wPages.length + 2) none (fetchTrace "project = TON" 10 wPages
          wRuns)).2 = Outcome.doneLast ∨
      (runFetchOnce "project = TON" 10 wPages (fun n => n == 0) true
        (wPages.length + 2) none (fetchTrace "project = TON" 10 wPages
          wRuns)).2 = Outcome.doneEmpty) ∧
     (∃ tail, (runFetchOnce "project = TON" 10 wPages (fun n => n == 0) true
        (wPages.length + 2) none (fetchTrace "project = TON" 10 wPages
          wRuns)).1.log =
          (fetchTrace "project = TON" 10 wPages wRuns).log ++ tail) ∧
     (itemKeys (runFetchOnce "project = TON" 10 wPages (fun n => n == 0) true
        (wPages.length + 2) none (fetchTrace "project = TON" 10 wPages
          wRuns)).1.log).Nodup ∧
     (∀ k ∈ sourceKeys wPages,
       k ∈ itemKeys (runFetchOnce "project = TON" 10 wPages (fun n => n == 0)
        true (wPages.length + 2) none (fetchTrace "project = TON" 10 wPages
          wRuns)).1.log)) ∧
    runFetchOnce "project = TON" 10 wPages (fun n => n == 0) false
        (wPages.length + 2) none (fetchTrace "project = TON" 10 wPages wRuns) =
      ((fetchTrace "project = TON" 10 wPages wRuns), Outcome.errored) :=
  cursor_rejection_restart_dedup "project = TON" 10 wPages wRuns wCp 1
    (by decide) (by decide) (by decide)

end Tonic
